import Mathlib

/-!
# BSGS over secp256k1: a shallow embedding of `bsgs.cpp`

`mpz_class` values are modelled as `Int`, `std::string` as `List Char` (one `Char` per C++
`char`), the `Point` typedef `array<mpz_class, 2>` as `Int × Int`.  The GMP routines the program
calls (`mpz_invert`, `mpz_powm`, `mpz_sizeinbase`, `mpz_tstbit`, `mpz_get_str`, `mpz_set_str`) are
modelled by executable definitions following the GMP manual; the `%` of `mpz_class` is truncated
division (`Int.tmod`).  The hash `XXH64` of the xxhash library is a parameter.  A C routine
given `s.c_str()` reads the characters before the first NUL (`c_str`).  The bytes written to
an `ofstream` are in the file once the stream is closed or destroyed; where the program reads
the file earlier, the number of bytes the stream has handed over by then is a parameter
(`sync`).

The OpenMP regions are run by one worker.  The shard files are a `Disk` value; a compressed
shard is held as the bytes its decompression yields.  Loops of the program are structural
recursions on an iteration budget, and the budgets passed by the callers are shown to suffice
where a result depends on it.
-/

namespace BSGS

/-! ## Constants and typedefs (bsgs.cpp lines 22-37) -/

abbrev Point := Int × Int

def modulo : Int := 0xFFFFFFFFFFFFFFFFFFFFFFFFFFFFFFFFFFFFFFFFFFFFFFFFFFFFFFFEFFFFFC2F
def order : Int := 0xFFFFFFFFFFFFFFFFFFFFFFFFFFFFFFFEBAAEDCE6AF48A03BBFD25E8CD0364141
def Gx : Int := 0x79BE667EF9DCBBAC55A06295CE870B07029BFCDB2DCE28D959F2815B16F81798
def Gy : Int := 0x483ada7726a3c4655da4fbfc0e1108a8fd17b448a68554199c47d08ffb10d4b8
def PG : Point := (Gx, Gy)
def Z : Point := (0, 0)

def MAX_TABLE_SIZE : Nat := 200 * 1024 * 1024

/-! ## GMP routines -/

/-- Euclid's algorithm on `(r0, r1)` carrying the cofactors `t0, t1` of the inverted operand,
reduced modulo `p`; yields the cofactor of the gcd when the gcd is one. -/
def invertLoop (p : Nat) : Nat → Nat → Nat → Nat → Nat → Option Nat
  | 0, _, _, _, _ => none
  | fuel + 1, r0, r1, t0, t1 =>
    if r1 = 0 then (if r0 = 1 then some t0 else none)
    else invertLoop p fuel r1 (r0 % r1) t1 ((t0 + (p - (r0 / r1 * t1) % p)) % p)

/-- Model of `mpz_invert(rop, op, m)`: the inverse of `op` modulo `m` in `[0, |m|)` when it
exists (`some`); when it does not exist the call returns zero and leaves `rop` untouched
(`none`). -/
def mpz_invert (op m : Int) : Option Int :=
  (invertLoop m.natAbs (m.natAbs + 1) m.natAbs (op % m).toNat 0 1).map Int.ofNat

/-- Square-and-multiply on naturals: `acc * b ^ e` modulo `m`. -/
def powmLoop (m : Nat) : Nat → Nat → Nat → Nat → Nat
  | 0, _, _, acc => acc
  | fuel + 1, b, e, acc =>
    if e = 0 then acc
    else powmLoop m fuel (b * b % m) (e / 2) (if e % 2 = 1 then acc * b % m else acc)

/-- Model of `mpz_powm(rop, base, exp, mod)` for a non-negative exponent: `base ^ exp` reduced
into `[0, |mod|)`. -/
def mpz_powm (base exp m : Int) : Int :=
  Int.ofNat (powmLoop m.natAbs exp.toNat (base % m).toNat exp.toNat (1 % m.natAbs))

/-- Number of binary digits of `n`, one for `n = 0`. -/
def bitLen : Nat → Nat → Nat
  | 0, _ => 1
  | fuel + 1, n => if n < 2 then 1 else bitLen fuel (n / 2) + 1

/-- Model of `mpz_sizeinbase(k, 2)`: the bit length of `|k|`, and `1` for `k = 0`. -/
def mpz_sizeinbase2 (k : Int) : Nat := bitLen k.natAbs k.natAbs

/-- Lowercase digit character of a value below sixteen. -/
def hexChar (d : Nat) : Char := Nat.digitChar d

/-- Most significant digit first, base sixteen, prepended to `acc`. -/
def hexLoop : Nat → Nat → List Char → List Char
  | 0, _, acc => acc
  | fuel + 1, n, acc =>
    if n < 16 then hexChar n :: acc else hexLoop fuel (n / 16) (hexChar (n % 16) :: acc)

/-- Model of `mpz_get_str(buf, 16, x)`: lowercase hexadecimal digits without leading zeros
(`"0"` for zero), preceded by a minus sign for a negative `x`. -/
def mpz_get_str16 (x : Int) : List Char :=
  if x < 0 then '-' :: hexLoop (x.natAbs + 1) x.natAbs [] else hexLoop (x.natAbs + 1) x.natAbs []

/-- C `isspace` in the default locale: space and the control characters 9..13. -/
def isspace (c : Char) : Bool := c.toNat = 32 ∨ (9 ≤ c.toNat ∧ c.toNat ≤ 13)

/-- Value of a hexadecimal digit of either case. -/
def hexval (c : Char) : Option Nat :=
  if 48 ≤ c.toNat ∧ c.toNat ≤ 57 then some (c.toNat - 48)
  else if 97 ≤ c.toNat ∧ c.toNat ≤ 102 then some (c.toNat - 87)
  else if 65 ≤ c.toNat ∧ c.toNat ≤ 70 then some (c.toNat - 55)
  else none

/-- C `isxdigit`: `0-9`, `a-f`, `A-F`. -/
def isxdigit (c : Char) : Bool := (hexval c).isSome

/-- Accumulates hexadecimal digits, ignoring white space; fails on any other character. -/
def digitsLoop : List Char → Nat → Option Nat
  | [], acc => some acc
  | c :: cs, acc =>
    if isspace c then digitsLoop cs acc
    else match hexval c with
      | some d => digitsLoop cs (16 * acc + d)
      | none => none

/-- The C string `s.c_str()` as a C routine reads it: the characters before the first NUL. -/
def c_str (s : List Char) : List Char := s.takeWhile (fun c => c ≠ Char.ofNat 0)

/-- Model of `mpz_set_str(rop, str, 16)` as used by the `mpz_class(string, 16)` constructor,
which passes `s.c_str()`: the string ends at its first NUL, and holds leading white space, an
optional minus sign, then at least one digit; `none` is the `std::invalid_argument` the
constructor throws. -/
def mpz_set_str16 (s : List Char) : Option Int :=
  match (c_str s).dropWhile isspace with
  | [] => none
  | c :: cs =>
    if c = '-' then
      match cs with
      | [] => none
      | d :: _ => if isxdigit d then (digitsLoop cs 0).map (fun n => -(n : Int)) else none
    else if isxdigit c then (digitsLoop (c :: cs) 0).map Int.ofNat else none

/-- Model of `std::stoi` on a short string: leading white space, an optional sign, then decimal
digits up to the first other character; `none` is the `std::invalid_argument` thrown when there
is no digit. -/
def stoi (s : List Char) : Option Int :=
  let t := s.dropWhile isspace
  let neg := t.head? = some '-'
  let u := if t.head? = some '-' ∨ t.head? = some '+' then t.tail else t
  let ds := u.takeWhile Char.isDigit
  if ds = [] then none
  else
    let v : Int := Int.ofNat (ds.foldl (fun a c => 10 * a + (c.toNat - 48)) 0)
    some (if neg then -v else v)

/-! ## Curve arithmetic (bsgs.cpp lines 104-159) -/

/-- Embedding of `add` (lines 104-127).  `inv` is default-constructed (zero) and keeps that
value when `mpz_invert` finds no inverse. -/
def add (P Q : Point) (p : Int := modulo) : Point :=
  if P = Z then Q
  else if Q = Z then P
  else
    let P0 := P.1
    let P1 := P.2
    let Q0 := Q.1
    let Q1 := Q.2
    if P ≠ Q then
      let num := Q1 - P1
      let denom := Q0 - P0
      let inv := (mpz_invert denom p).getD 0
      let lmbda := (num * inv).tmod p
      let x := (lmbda * lmbda - P0 - Q0).tmod p
      let x := if x < 0 then x + p else x
      let y := (lmbda * (P0 - x) - P1).tmod p
      let y := if y < 0 then y + p else y
      (x, y)
    else if P1 = 0 then Z
    else
      let num := 3 * P0 * P0
      let denom := 2 * P1
      let inv := (mpz_invert denom p).getD 0
      let lmbda := (num * inv).tmod p
      let x := (lmbda * lmbda - P0 - Q0).tmod p
      let x := if x < 0 then x + p else x
      let y := (lmbda * (P0 - x) - P1).tmod p
      let y := if y < 0 then y + p else y
      (x, y)

/-- The ladder loop of `mul` (lines 132-140): `i` counts the bits still to process, the bit
tested is `i - 1`, from the most significant one down to bit zero. -/
def mulLoop (k : Int) (p : Int) : Nat → Point → Point → Point
  | 0, R0, _ => R0
  | i + 1, R0, R1 =>
    if k.testBit i then mulLoop k p i (add R0 R1 p) (add R1 R1 p)
    else mulLoop k p i (add R0 R0 p) (add R0 R1 p)

/-- Embedding of `mul` (lines 129-142). -/
def mul (k : Int) (P : Point := PG) (p : Int := modulo) : Point :=
  mulLoop k p (mpz_sizeinbase2 k) Z P

/-- Embedding of `point_subtraction` (lines 144-147); `%` truncates, so the negated ordinate
is not lifted into `[0, p)`. -/
def point_subtraction (P Q : Point) : Point :=
  let Q_neg : Point := (Q.1, (-Q.2).tmod modulo)
  add P Q_neg

/-- Embedding of `X2Y` (lines 149-159). -/
def X2Y (X : Int) (y_parity : Int) (p : Int := modulo) : Int :=
  let X_cubed := (X * X * X).tmod p
  let tmp := (X_cubed + 7).tmod p
  let exp := (p + 1).tdiv 4
  let Y := mpz_powm tmp exp p
  if Y.tmod 2 ≠ y_parity then p - Y else Y

/-! ## Key strings (bsgs.cpp lines 69-102, 161-175) -/

/-- Embedding of `validate_pubkey` (lines 69-88). -/
def validate_pubkey (pubkey : List Char) : Bool :=
  if pubkey.length ≠ 66 then false
  else if pubkey.get? 0 ≠ some '0' ∨ (pubkey.get? 1 ≠ some '2' ∧ pubkey.get? 1 ≠ some '3') then
    false
  else (pubkey.drop 2).all isxdigit

/-- How a call of `parse_pubkey` ends without a point. -/
inductive KeyError where
  /-- The `exit(1)` after "Invalid compressed public key!". -/
  | invalidKey
  /-- An exception of `substr`, `stoi` or the `mpz_class` constructor. -/
  | exception
  deriving DecidableEq, Repr

deriving instance DecidableEq for Except

/-- Embedding of `parse_pubkey` (lines 90-102). -/
def parse_pubkey (pubkey : List Char) : Except KeyError Point :=
  if pubkey.length < 2 then .error .exception
  else
    let pfx := pubkey.take 2
    match mpz_set_str16 (pubkey.drop 2) with
    | none => .error .exception
    | some X =>
      match stoi pfx with
      | none => .error .exception
      | some v =>
        let y_parity := v - 2
        let Y := X2Y X y_parity
        if Y = 0 then .error .invalidKey else .ok (X, Y)

/-- Embedding of `point_to_cpub` (lines 161-168); `get_ui() & 1` is the low bit of `|y|`. -/
def point_to_cpub (point : Point) : List Char :=
  let x := point.1
  let y := point.2
  let y_parity := y.natAbs % 2
  let pfx := if y_parity = 0 then ['0', '2'] else ['0', '3']
  pfx ++ mpz_get_str16 x

/-- The `%016lx` conversion: lowercase hexadecimal, padded with zeros to sixteen characters. -/
def fmt016lx (h : Nat) : List Char :=
  let ds := hexLoop (h + 1) h []
  List.replicate (16 - ds.length) '0' ++ ds

/-- Embedding of `hash_cpub` (lines 170-175); `XXH64_hash_t` is a 64-bit unsigned integer. -/
def hash_cpub (XXH64 : List Char → Nat) (cpub : List Char) : List Char :=
  let hash := XXH64 cpub % 2 ^ 64
  (fmt016lx hash).take 8

/-! ## Baby table and shard files (bsgs.cpp lines 177-403) -/

/-- The `unordered_map<string, int>` holding the baby steps. -/
abbrev BabyTable := List (List Char × Int)

/-- Lookup `baby_table.find(key)`. -/
def BabyTable.find (t : BabyTable) (key : List Char) : Option Int := List.lookup key t

/-- Assignment `baby_table[key] = index`: a later value replaces an earlier one. -/
def BabyTable.set (t : BabyTable) (key : List Char) (index : Int) : BabyTable :=
  (key, index) :: t.filter (fun e => e.1 ≠ key)

/-- Conversion of an integer to the 32-bit `int` (two's complement wrap-around). -/
def to_int32 (v : Int) : Int := (v + 2 ^ 31) % 2 ^ 32 - 2 ^ 31

abbrev Byte := Nat

/-- The shard files on disk by part number: `raw n` is `baby_table_part_n`, `gz n` is
`baby_table_part_n.gz`, held as the bytes `pigz -d -c` yields for it. -/
structure Disk where
  raw : List (Nat × List Byte)
  gz : List (Nat × List Byte)
  deriving DecidableEq, Repr

/-- No shard file at all, the state after `rm -f baby_table_part_* baby_table_part_*.gz`. -/
def Disk.empty : Disk := ⟨[], []⟩

/-- Appends bytes to the uncompressed part `n`, creating the file when absent
(`ofstream(filename, ios::binary | ios::app)`). -/
def Disk.append (d : Disk) (n : Nat) (bs : List Byte) : Disk :=
  { d with raw := (n, (d.raw.lookup n).getD [] ++ bs) :: d.raw.filter (fun e => e.1 ≠ n) }

/-- The command `pigz -9 -b 128 -f baby_table_part_n`: replaces the uncompressed file by its
compressed form, and does nothing when the file is absent. -/
def Disk.pigz (d : Disk) (n : Nat) : Disk :=
  match d.raw.lookup n with
  | none => d
  | some bs =>
    { raw := d.raw.filter (fun e => e.1 ≠ n), gz := (n, bs) :: d.gz.filter (fun e => e.1 ≠ n) }

/-- The four bytes of an `int`, least significant first. -/
def int_bytes (v : Int) : List Byte :=
  let u := (v % 2 ^ 32).toNat
  [u % 256, u / 256 % 256, u / 65536 % 256, u / 16777216 % 256]

/-- The 12-byte record written for an entry: eight characters of the key, then the index. -/
def record_bytes (entry : List Char × Int) : List Byte :=
  ((entry.1.map (fun (c : Char) => c.toNat % 256)) ++ List.replicate 8 0).take 8 ++ int_bytes entry.2

/-- The value of `max_part_size` (line 331): the double product `209715200 * 0.99` rounds to
`207618048.0`, which the conversion to `size_t` keeps. -/
def max_part_size : Nat := MAX_TABLE_SIZE * 99 / 100

/-- State of the builder: the disk, the counters `parts_created` and `current_part_size`. -/
structure BuildState where
  disk : Disk
  parts_created : Nat
  current_part_size : Nat
  deriving DecidableEq, Repr

/-- The loop over `local_buffer` inside the first critical section (lines 358-371): `isOpen`
tells whether `outfile` is still open, `current_part` is the part the stream was opened on. -/
def flush_loop (current_part : Nat) : List (List Char × Int) → Bool → BuildState → BuildState
  | [], _, s => s
  | entry :: rest, isOpen, s =>
    let disk := if isOpen then s.disk.append current_part (record_bytes entry) else s.disk
    let size := s.current_part_size + 12
    if size ≥ max_part_size then
      flush_loop current_part rest false
        ⟨disk.pigz current_part, s.parts_created + 1, 0⟩
    else
      flush_loop current_part rest isOpen ⟨disk, s.parts_created, size⟩

/-- The first critical section (lines 352-374), entered when the buffer holds 100000 entries. -/
def flush_full (buffer : List (List Char × Int)) (s : BuildState) : BuildState :=
  let current_part := s.parts_created + 1
  flush_loop current_part buffer true { s with disk := s.disk.append current_part [] }

/-- The second critical section (lines 378-396), run once after the loop. -/
def flush_rest (buffer : List (List Char × Int)) (s : BuildState) : BuildState :=
  if buffer = [] then s
  else
    let current_part := s.parts_created + 1
    let disk := s.disk.append current_part (buffer.flatMap record_bytes)
    ⟨disk.pigz current_part, s.parts_created + 1, s.current_part_size⟩

/-- The `omp for` loop of the builder run by one worker (lines 346-376): `i` runs over
`total_entries - todo .. total_entries - 1`. -/
def build_loop (XXH64 : List Char → Nat) (total_entries : Nat) :
    Nat → List (List Char × Int) → BuildState → List (List Char × Int) × BuildState
  | 0, buffer, s => (buffer, s)
  | todo + 1, buffer, s =>
    let i := total_entries - (todo + 1)
    let P := mul (Int.ofNat i)
    let cpub_hash := hash_cpub XXH64 (point_to_cpub P)
    let buffer := buffer ++ [(cpub_hash, to_int32 (Int.ofNat i))]
    if buffer.length ≥ 100000 then build_loop XXH64 total_entries todo [] (flush_full buffer s)
    else build_loop XXH64 total_entries todo buffer s

/-- Embedding of `generate_baby_table_parallel` (lines 328-403) with one worker: the files it
leaves on disk (the map it returns is always empty). -/
def generate_baby_table_parallel (XXH64 : List Char → Nat) (m : Int) : Disk :=
  let total_entries := m.natAbs % 2 ^ 64
  let r := build_loop XXH64 total_entries total_entries [] ⟨Disk.empty, 0, 0⟩
  (flush_rest r.1 r.2).disk

/-- The key string made from the eight bytes read: characters up to the first NUL. -/
def key_of_bytes (bs : List Byte) : List Char :=
  (bs.takeWhile (fun b => b ≠ 0)).map Char.ofNat

/-- The 32-bit `int` read from four bytes, least significant first. -/
def int_of_bytes (bs : List Byte) : Int :=
  to_int32 (Int.ofNat (bs.getD 0 0 + 256 * bs.getD 1 0 + 65536 * bs.getD 2 0 + 16777216 * bs.getD 3 0))

/-- The record loop of `load_baby_table` (lines 274-279) over the decompressed bytes. -/
def load_records : Nat → List Byte → BabyTable → BabyTable
  | 0, _, t => t
  | fuel + 1, bs, t =>
    if bs.length < 8 then t
    else if (bs.drop 8).length < 4 then t
    else load_records fuel (bs.drop 12) (t.set (key_of_bytes (bs.take 8)) (int_of_bytes ((bs.drop 8).take 4)))

/-- The loop over part numbers of `load_baby_table` (lines 251-286). -/
def load_parts (d : Disk) : Nat → Nat → BabyTable → BabyTable
  | 0, _, t => t
  | fuel + 1, part_num, t =>
    match d.gz.lookup part_num with
    | none => if part_num = 1 then [] else t
    | some bs => load_parts d fuel (part_num + 1) (load_records bs.length bs t)

/-- Embedding of `load_baby_table` (lines 247-290). -/
def load_baby_table (d : Disk) : BabyTable := load_parts d (d.gz.length + 1) 1 []

/-- Embedding of `delete_existing_table` (lines 292-326). -/
def delete_existing_table_loop (fuel part_num : Nat) (d : Disk) : Disk :=
  match fuel with
  | 0 => d
  | fuel + 1 =>
    if (d.raw.lookup part_num).isSome ∨ (d.gz.lookup part_num).isSome then
      delete_existing_table_loop fuel (part_num + 1)
        ⟨d.raw.filter (fun e => e.1 ≠ part_num), d.gz.filter (fun e => e.1 ≠ part_num)⟩
    else d

/-! ## Driver (bsgs.cpp lines 405-541) -/

def start_range (puzzle : Int) : Int := 2 ^ (puzzle - 1).toNat
def end_range (puzzle : Int) : Int := 2 ^ puzzle.toNat - 1

/-- The baby-step count of lines 462-463. -/
def baby_steps (puzzle : Int) : Int :=
  Int.ofNat (Nat.sqrt (end_range puzzle - start_range puzzle).toNat) * 4

/-- The `while` loop of the search (lines 498-529) as run by one worker; the outer `none` is an
exhausted iteration budget, `some none` the end of the loop without a key, `some (some k)` the
assignment `found_key = k`. -/
def giant_loop (XXH64 : List Char → Nat) (baby_table : BabyTable) (puzzle_pubkey : List Char)
    (start range m : Int) (m_P : Point) : Nat → Point → Int → Option (Option Int)
  | 0, _, _ => none
  | fuel + 1, local_S, local_step =>
    if local_step < range then
      let cpub := point_to_cpub local_S
      let cpub_hash := hash_cpub XXH64 cpub
      match baby_table.find cpub_hash with
      | some b =>
        let k := start + local_step + b
        if point_to_cpub (mul k) = puzzle_pubkey then some (some k)
        else giant_loop XXH64 baby_table puzzle_pubkey start range m m_P fuel
          (point_subtraction local_S m_P) (local_step + m)
      | none =>
        giant_loop XXH64 baby_table puzzle_pubkey start range m m_P fuel
          (point_subtraction local_S m_P) (local_step + m)
    else some none

/-- The running point `local_S` of the search after `j` giant steps: line 526,
`local_S = point_subtraction(local_S, m_P)`, applied `j` times to the initial point `S`. -/
def giant_S (m_P S : Point) (j : Nat) : Point :=
  Nat.iterate (fun T => point_subtraction T m_P) j S

/-- The search of `main` (lines 484-531) for the parsed target `P` over a loaded table. -/
def search (XXH64 : List Char → Nat) (baby_table : BabyTable) (puzzle : Int)
    (puzzle_pubkey : List Char) (P : Point) : Option (Option Int) :=
  let m := baby_steps puzzle
  let m_P := mul m
  let S := point_subtraction P (mul (start_range puzzle))
  giant_loop XXH64 baby_table puzzle_pubkey (start_range puzzle)
    (end_range puzzle - start_range puzzle) m m_P
    ((end_range puzzle - start_range puzzle).toNat + 1) S 0

/-- How a run of `main` ends. -/
inductive Outcome where
  /-- Rejected options `-p` or `-k`: return 1. -/
  | badOption
  /-- The process ended inside `parse_pubkey`. -/
  | badKey (e : KeyError)
  /-- Message "Failed to load baby table": return 1. -/
  | loadFailed
  /-- Message "Key not found in the specified range": return 0. -/
  | notFound
  /-- Message "Solution found!" with `found_key = k`: return 0. -/
  | found (k : Int)
  /-- The iteration budget of the model ran out. -/
  | outOfFuel
  deriving DecidableEq, Repr

/-- Embedding of `main` (lines 405-541) called with `-p puzzle -k puzzle_pubkey`, one worker,
on a disk `disk`. -/
def main (XXH64 : List Char → Nat) (puzzle : Int) (puzzle_pubkey : List Char) (disk : Disk) :
    Outcome :=
  if puzzle < 1 ∨ puzzle > 256 then .badOption
  else if ¬ validate_pubkey puzzle_pubkey then .badOption
  else
    match parse_pubkey puzzle_pubkey with
    | .error e => .badKey e
    | .ok P =>
      let m := baby_steps puzzle
      let _cleared := delete_existing_table_loop (disk.raw.length + disk.gz.length + 1) 1 disk
      let built := generate_baby_table_parallel XXH64 m
      let baby_table := load_baby_table built
      if baby_table.isEmpty then .loadFailed
      else
        match search XXH64 baby_table puzzle puzzle_pubkey P with
        | none => .outOfFuel
        | some none => .notFound
        | some (some k) => .found k

/-! ## Curve points -/

/-- The curve equation `y² ≡ x³ + 7 (mod p)`. -/
def OnCurve (P : Point) : Prop := (P.2 * P.2 - (P.1 * P.1 * P.1 + 7)) % modulo = 0

instance (P : Point) : Decidable (OnCurve P) := by unfold OnCurve; infer_instance

/-- Both coordinates lie in `[0, p)`. -/
def Reduced (P : Point) : Prop := 0 ≤ P.1 ∧ P.1 < modulo ∧ 0 ≤ P.2 ∧ P.2 < modulo

instance (P : Point) : Decidable (Reduced P) := by unfold Reduced; infer_instance

/-! ## The curve group used to state the meaning of the program's points -/

/-- The curve `y² = x³ + 7` over the integers modulo `p`. -/
def secp : WeierstrassCurve.Affine (ZMod modulo.toNat) := ⟨0, 0, 0, 0, 7⟩

/-- `Rep P A`: the pair of integers `P` held by the program denotes the point `A` of the curve:
the sentinel `(0, 0)` denotes the point at infinity, a pair with coordinates in `[0, p)` denotes
the affine point with these coordinates. -/
def Rep (P : Point) (A : secp.Point) : Prop :=
  (P = Z ∧ A = 0) ∨
    (Reduced P ∧ ∃ h : secp.Nonsingular (P.1 : ZMod modulo.toNat) (P.2 : ZMod modulo.toNat),
      A = WeierstrassCurve.Affine.Point.some h)

/-- The call `add P Q` does not meet two different points with the same abscissa, the case
for which `add` has no branch. -/
def addOk (P Q : Point) : Bool := P = Z ∨ Q = Z ∨ P = Q ∨ P.1 ≠ Q.1

/-- Along the run of `mulLoop`, every call `add R0 R1` whose result is used satisfies
`addOk`. -/
def mulLoopOk (k : Int) (p : Int) : Nat → Point → Point → Bool
  | 0, _, _ => true
  | i + 1, R0, R1 =>
    ((!(k.testBit i) && i == 0) || addOk R0 R1) &&
      (if k.testBit i then mulLoopOk k p i (add R0 R1 p) (add R1 R1 p)
       else mulLoopOk k p i (add R0 R0 p) (add R0 R1 p))

/-! ## Statements taken from the specification -/

/-- A lowercase hexadecimal digit, `0-9` or `a-f`. -/
def isLowerHex (c : Char) : Bool :=
  (48 ≤ c.toNat ∧ c.toNat ≤ 57) ∨ (97 ≤ c.toNat ∧ c.toNat ≤ 102)

/-- The target key format in the words of the specification: 66 lowercase hexadecimal
characters of which the first two are `02` or `03`. -/
def validate_pubkey_spec (s : List Char) : Bool :=
  s.length = 66 ∧ (s.take 2 = ['0', '2'] ∨ s.take 2 = ['0', '3']) ∧ s.all isLowerHex

/-- The `w` hexadecimal digits of `n mod 16^w`, most significant first, zero-padded. -/
def hexFixed : Nat → Nat → List Char
  | 0, _ => []
  | w + 1, n => hexFixed w (n / 16) ++ [hexChar (n % 16)]

/-- Numerator of the slope computed by `add` (lines 112-119). -/
def slopeNum (P Q : Point) : Int := if P ≠ Q then Q.2 - P.2 else 3 * P.1 * P.1

/-- Denominator of the slope computed by `add` (lines 112-119). -/
def slopeDenom (P Q : Point) : Int := if P ≠ Q then Q.1 - P.1 else 2 * P.2

/-- Negation in the words of the specification: `(P.x, (-P.y) mod p)` with the ordinate in
`[0, p)`; the sentinel is its own negation. -/
def neg (P : Point) : Point := if P = Z then Z else (P.1, (-P.2) % modulo)

/-- The `i`-th complete record of the bytes `B` as the loader reads it: the key is made of the
bytes 0..7 of the record up to the first zero byte, the index is the `int` held in its bytes
8..11. -/
def record_at (B : List Byte) (i : Nat) : List Char × Int :=
  (key_of_bytes ((B.drop (12 * i)).take 8), int_of_bytes (((B.drop (12 * i)).drop 8).take 4))

/-- The `⌊|B| / 12⌋` complete records of `B`, in order. -/
def records_of (B : List Byte) : List (List Char × Int) :=
  (List.range (B.length / 12)).map (record_at B)

/-- The complete records of `B` in the words of the specification: each fingerprint is the
eight bytes 0..7 of its record. -/
def records_of_spec (B : List Byte) : List (List Char × Int) :=
  (List.range (B.length / 12)).map (fun i =>
    (((B.drop (12 * i)).take 8).map Char.ofNat,
      int_of_bytes (((B.drop (12 * i)).drop 8).take 4)))

/-- Insertion of a sequence of entries into a table, in order. -/
def insert_all (t : BabyTable) (es : List (List Char × Int)) : BabyTable :=
  es.foldl (fun t e => t.set e.1 e.2) t

/-- Embedding of `save_baby_table_part` (lines 177-202). The part file is opened afresh and
one record per entry is written to the stream `outfile`; the stream is neither flushed nor
closed before `pigz` runs (lines 194-200), its destructor runs when the function returns.
`sync n` is the number of bytes that the stream has handed to the file by the time `pigz`
runs, out of `n` bytes written to it: `pigz` compresses these bytes and deletes the file, and
the bytes still held by the stream are lost with it. -/
def save_baby_table_part (sync : Nat → Nat) (baby_table : BabyTable) (part_num : Nat)
    (d : Disk) : Disk :=
  let written := baby_table.flatMap record_bytes
  Disk.pigz
    { d with raw := (part_num, written.take (sync written.length)) ::
        d.raw.filter (fun e => e.1 ≠ part_num) }
    part_num

/-- The call `current_part.insert(entry)`: an entry whose key is present already is not
inserted. -/
def BabyTable.insert (t : BabyTable) (entry : List Char × Int) : BabyTable :=
  if (t.find entry.1).isSome then t else t ++ [entry]

/-- The loop of `save_baby_table` (lines 209-218) and the final part (lines 220-222); the
entries of a table are visited in the order of the list. -/
def save_loop (sync : Nat → Nat) : BabyTable → Nat → Nat → BabyTable → Disk → Disk
  | [], _, part_num, current_part, d =>
    if current_part ≠ [] then save_baby_table_part sync current_part part_num d else d
  | entry :: rest, current_size, part_num, current_part, d =>
    let entry_size := entry.1.length + 4
    if current_size + entry_size > MAX_TABLE_SIZE ∧ current_part ≠ [] then
      save_loop sync rest (0 + entry_size) (part_num + 1) (BabyTable.insert [] entry)
        (save_baby_table_part sync current_part part_num d)
    else
      save_loop sync rest (current_size + entry_size) part_num (current_part.insert entry) d

/-- Embedding of `save_baby_table` (lines 204-223), for the stream behaviour `sync` of
`save_baby_table_part`. -/
def save_baby_table (sync : Nat → Nat) (baby_table : BabyTable) (d : Disk) : Disk :=
  save_loop sync baby_table 0 1 [] d

/-- An entry as the builder produces it: a fingerprint of 8 hexadecimal characters and an
index in the range of the 32-bit `int`. -/
def WFEntry (e : List Char × Int) : Prop :=
  e.1.length = 8 ∧ (∀ c ∈ e.1, isxdigit c = true) ∧ -2 ^ 31 ≤ e.2 ∧ e.2 < 2 ^ 31

instance (e : List Char × Int) : Decidable (WFEntry e) := by unfold WFEntry; infer_instance

/-- The compressed files `1 .. N` holding the chunks `rcs` of entries, the last chunk first,
each chunk written in full as 12-byte records. -/
def gzOf : List BabyTable → List (Nat × List Byte)
  | [] => []
  | c :: rcs => (rcs.length + 1, c.flatMap record_bytes) :: gzOf rcs

/-- The records held in the compressed shards, taken together. -/
def Disk.records (d : Disk) : List (List Char × Int) := d.gz.flatMap (fun e => records_of e.2)

/-- Total size in bytes of the shard files, compressed ones counted by their content. -/
def Disk.bytes (d : Disk) : Nat :=
  (d.raw.map (fun e => e.2.length)).sum + (d.gz.map (fun e => e.2.length)).sum

/-! ## Evaluations of the ladder -/

theorem mul_order_pred : mul (order - 1) = (Gx, modulo - Gy) := by decide!

theorem mul_order_eq : mul order =
    (115792089237316195423570984834851353929649286077088357206359880238388870169449,
     87194829221142880348582938487511785107150118762739500766654458540580527283772) := by
  decide!

theorem parse_pubkey_G :
    parse_pubkey "0279be667ef9dcbbac55a06295ce870b07029bfcdb2dce28d959f2815b16f81798".toList
      = .ok PG := by decide!

/-! ## The search loop -/

theorem giant_loop_sound (XXH64 : List Char → Nat) (baby_table : BabyTable)
    (puzzle_pubkey : List Char) (start range m : Int) (m_P : Point) (fuel : Nat) :
    ∀ (local_S : Point) (local_step k : Int),
      giant_loop XXH64 baby_table puzzle_pubkey start range m m_P fuel local_S local_step
        = some (some k) →
      point_to_cpub (mul k) = puzzle_pubkey ∧
        ∃ (j : Nat) (b : Int) (key : List Char),
          baby_table.find key = some b ∧ k = start + (local_step + j * m) + b := by
  induction fuel with
  | zero => intro S step k h; simp [giant_loop] at h
  | succ fuel ih =>
    intro S step k h
    have step_case : ∀ k, giant_loop XXH64 baby_table puzzle_pubkey start range m m_P fuel
        (point_subtraction S m_P) (step + m) = some (some k) →
        point_to_cpub (mul k) = puzzle_pubkey ∧
        ∃ (j : Nat) (b : Int) (key : List Char),
          baby_table.find key = some b ∧ k = start + (step + j * m) + b := by
      intro k hk
      obtain ⟨h1, j, b, key, hb, hkey⟩ := ih _ _ _ hk
      refine ⟨h1, j + 1, b, key, hb, ?_⟩
      rw [hkey]; push_cast; ring
    unfold giant_loop at h
    split_ifs at h with hlt
    swap
    · simp at h
    · simp only at h
      split at h
      · rename_i b hb
        split_ifs at h with hv
        · have hk : start + step + b = k := by simpa using h
          subst hk
          exact ⟨hv, 0, b, _, hb, by simp⟩
        · exact step_case k h
      · exact step_case k h

/-- The iteration budget suffices when the stride is positive: the loop of the search ends. -/
theorem giant_loop_terminates (XXH64 : List Char → Nat) (baby_table : BabyTable)
    (puzzle_pubkey : List Char) (start range m : Int) (m_P : Point) (hm : 1 ≤ m) (fuel : Nat) :
    ∀ (local_S : Point) (local_step : Int), 0 < fuel → range - local_step < fuel →
      giant_loop XXH64 baby_table puzzle_pubkey start range m m_P fuel local_S local_step
        ≠ none := by
  induction fuel with
  | zero => intro S step h; omega
  | succ fuel ih =>
    intro S step _ hlt
    unfold giant_loop
    split_ifs with h
    · have hnext : giant_loop XXH64 baby_table puzzle_pubkey start range m m_P fuel
          (point_subtraction S m_P) (step + m) ≠ none :=
        ih _ _ (by omega) (by push_cast at hlt; omega)
      simp only
      split
      · split_ifs
        · simp
        · exact hnext
      · exact hnext
    · simp

/-- The search of `main` always ends, with a key or without one. -/
theorem search_terminates (XXH64 : List Char → Nat) (baby_table : BabyTable) (puzzle : Int)
    (puzzle_pubkey : List Char) (P : Point) :
    search XXH64 baby_table puzzle puzzle_pubkey P ≠ none := by
  unfold search
  simp only
  by_cases hr : 0 < end_range puzzle - start_range puzzle
  · apply giant_loop_terminates
    · unfold baby_steps
      have hpos : 0 < (end_range puzzle - start_range puzzle).toNat := by omega
      have := Nat.sqrt_pos.2 hpos
      simp only [Int.ofNat_eq_coe]
      omega
    · omega
    · omega
  · unfold giant_loop
    simp [hr]

/-! ## Modular powers and primality certificates -/

theorem powmLoop_eq (m : Nat) : ∀ (fuel b e acc : Nat), acc < m → e < 2 ^ fuel →
    powmLoop m fuel b e acc = acc * b ^ e % m := by
  intro fuel
  induction fuel with
  | zero =>
    intro b e acc hacc he
    have : e = 0 := by simpa using he
    subst this
    simp [powmLoop, Nat.mod_eq_of_lt hacc]
  | succ fuel ih =>
    intro b e acc hacc he
    unfold powmLoop
    by_cases h0 : e = 0
    · subst h0; simp [Nat.mod_eq_of_lt hacc]
    · rw [if_neg h0]
      have hm : 0 < m := by omega
      have he2 : e / 2 < 2 ^ fuel := by
        rw [Nat.div_lt_iff_lt_mul (by norm_num)]
        rw [pow_succ] at he; exact he
      have key : ∀ c : Nat, c * (b * b % m) ^ (e / 2) % m = c * b ^ (2 * (e / 2)) % m := by
        intro c
        rw [Nat.mul_mod, Nat.pow_mod, Nat.mod_mod, ← Nat.pow_mod, ← Nat.mul_mod, ← pow_two,
          ← pow_mul]
      by_cases hodd : e % 2 = 1
      · rw [if_pos hodd, ih _ _ _ (Nat.mod_lt _ hm) he2, key]
        have hee : e = 2 * (e / 2) + 1 := by omega
        conv_rhs => rw [hee, pow_succ]
        rw [Nat.mul_mod, Nat.mod_mod, ← Nat.mul_mod]
        ring_nf
      · rw [if_neg hodd, ih _ _ _ hacc he2, key]
        have hee : e = 2 * (e / 2) := by omega
        conv_rhs => rw [hee]

/-- Modular power of naturals computed by `powmLoop`. -/
theorem powmLoop_pow (m b e : Nat) (hm : 1 < m) : powmLoop m e b e 1 = b ^ e % m := by
  rw [powmLoop_eq m e b e 1 hm (Nat.lt_two_pow e), one_mul]

theorem natCast_pow_eq_one_iff (p a e : Nat) (hp : 1 < p) :
    ((a : ZMod p) ^ e = 1) ↔ powmLoop p e a e 1 = 1 := by
  rw [powmLoop_pow p a e hp]
  have : ((a : ZMod p) ^ e = 1) ↔ ((a ^ e : Nat) : ZMod p) = ((1 : Nat) : ZMod p) := by
    push_cast; rfl
  rw [this, ZMod.natCast_eq_natCast_iff, Nat.ModEq, Nat.mod_eq_of_lt hp]

/-- Lucas' test with a full factorisation of `p - 1` into primes. -/
theorem pratt (p a : Nat) (fs : List Nat) (hp : 1 < p) (hprod : fs.prod = p - 1)
    (hfs : ∀ q ∈ fs, q.Prime) (h1 : powmLoop p (p - 1) a (p - 1) 1 = 1)
    (h2 : ∀ q ∈ fs, powmLoop p ((p - 1) / q) a ((p - 1) / q) 1 ≠ 1) : p.Prime := by
  refine lucas_primality p (a : ZMod p) ((natCast_pow_eq_one_iff p a _ hp).2 h1) ?_
  intro q hq hdvd
  rw [← hprod] at hdvd
  obtain ⟨r, hr, hqr⟩ := (Prime.dvd_prod_iff hq.prime).1 hdvd
  have : q = r := (Nat.prime_dvd_prime_iff_eq hq (hfs r hr)).1 hqr
  subst this
  exact fun h => h2 q hr ((natCast_pow_eq_one_iff p a _ hp).1 h)

/-! Pratt certificates for the field prime and the group order; the witnesses and the
factorisations of `q - 1` are checked by evaluation. -/

theorem prime_p0 : Nat.Prime 1206781 := by
  refine pratt 1206781 10
    [2, 2, 3, 5, 20113] (by norm_num) (by norm_num) ?_ (by decide!) (by decide!)
  intro r hr
  simp only [List.mem_cons, List.mem_singleton, List.not_mem_nil, or_false] at hr
  rcases hr with rfl | rfl | rfl | rfl | rfl
  · norm_num
  · norm_num
  · norm_num
  · norm_num
  · norm_num

theorem prime_p1 : Nat.Prime 7240687 := by
  refine pratt 7240687 3
    [2, 3, 1206781] (by norm_num) (by norm_num) ?_ (by decide!) (by decide!)
  intro r hr
  simp only [List.mem_cons, List.mem_singleton, List.not_mem_nil, or_false] at hr
  rcases hr with rfl | rfl | rfl
  · norm_num
  · norm_num
  · exact prime_p0

theorem prime_p2 : Nat.Prime 13331831 := by
  refine pratt 13331831 13
    [2, 5, 971, 1373] (by norm_num) (by norm_num) ?_ (by decide!) (by decide!)
  intro r hr
  simp only [List.mem_cons, List.mem_singleton, List.not_mem_nil, or_false] at hr
  rcases hr with rfl | rfl | rfl | rfl
  · norm_num
  · norm_num
  · norm_num
  · norm_num

theorem prime_p3 : Nat.Prime 107590001 := by
  refine pratt 107590001 3
    [2, 2, 2, 2, 5, 5, 5, 5, 7, 29, 53] (by norm_num) (by norm_num) ?_ (by decide!) (by decide!)
  intro r hr
  simp only [List.mem_cons, List.mem_singleton, List.not_mem_nil, or_false] at hr
  rcases hr with rfl | rfl | rfl | rfl | rfl | rfl | rfl | rfl | rfl | rfl | rfl
  · norm_num
  · norm_num
  · norm_num
  · norm_num
  · norm_num
  · norm_num
  · norm_num
  · norm_num
  · norm_num
  · norm_num
  · norm_num

theorem prime_p4 : Nat.Prime 173378833005251801 := by
  refine pratt 173378833005251801 6
    [2, 2, 2, 5, 5, 2621, 24809, 13331831] (by norm_num) (by norm_num) ?_ (by decide!) (by decide!)
  intro r hr
  simp only [List.mem_cons, List.mem_singleton, List.not_mem_nil, or_false] at hr
  rcases hr with rfl | rfl | rfl | rfl | rfl | rfl | rfl | rfl
  · norm_num
  · norm_num
  · norm_num
  · norm_num
  · norm_num
  · norm_num
  · norm_num
  · exact prime_p2

theorem prime_p5 : Nat.Prime 22149492674086928081353 := by
  refine pratt 22149492674086928081353 5
    [2, 2, 2, 3, 5323, 173378833005251801] (by norm_num) (by norm_num) ?_ (by decide!) (by decide!)
  intro r hr
  simp only [List.mem_cons, List.mem_singleton, List.not_mem_nil, or_false] at hr
  rcases hr with rfl | rfl | rfl | rfl | rfl | rfl
  · norm_num
  · norm_num
  · norm_num
  · norm_num
  · norm_num
  · exact prime_p4

theorem prime_p6 : Nat.Prime 132896956044521568488119 := by
  refine pratt 132896956044521568488119 6
    [2, 3, 22149492674086928081353] (by norm_num) (by norm_num) ?_ (by decide!) (by decide!)
  intro r hr
  simp only [List.mem_cons, List.mem_singleton, List.not_mem_nil, or_false] at hr
  rcases hr with rfl | rfl | rfl
  · norm_num
  · norm_num
  · exact prime_p5

theorem prime_p7 : Nat.Prime 255515944373312847190720520512484175977 := by
  refine pratt 255515944373312847190720520512484175977 3
    [2, 2, 2, 7, 7, 11, 1627, 2657, 4423, 41201, 96557, 7240687, 107590001] (by norm_num) (by norm_num) ?_ (by decide!) (by decide!)
  intro r hr
  simp only [List.mem_cons, List.mem_singleton, List.not_mem_nil, or_false] at hr
  rcases hr with rfl | rfl | rfl | rfl | rfl | rfl | rfl | rfl | rfl | rfl | rfl | rfl | rfl
  · norm_num
  · norm_num
  · norm_num
  · norm_num
  · norm_num
  · norm_num
  · norm_num
  · norm_num
  · norm_num
  · norm_num
  · norm_num
  · exact prime_p1
  · exact prime_p3

theorem prime_p8 : Nat.Prime 205115282021455665897114700593932402728804164701536103180137503955397371 := by
  refine pratt 205115282021455665897114700593932402728804164701536103180137503955397371 10
    [2, 3, 5, 29, 29, 31, 7723, 132896956044521568488119, 255515944373312847190720520512484175977] (by norm_num) (by norm_num) ?_ (by decide!) (by decide!)
  intro r hr
  simp only [List.mem_cons, List.mem_singleton, List.not_mem_nil, or_false] at hr
  rcases hr with rfl | rfl | rfl | rfl | rfl | rfl | rfl | rfl | rfl
  · norm_num
  · norm_num
  · norm_num
  · norm_num
  · norm_num
  · norm_num
  · norm_num
  · exact prime_p6
  · exact prime_p7

theorem prime_p9 : Nat.Prime 115792089237316195423570985008687907853269984665640564039457584007908834671663 := by
  refine pratt 115792089237316195423570985008687907853269984665640564039457584007908834671663 3
    [2, 3, 7, 13441, 205115282021455665897114700593932402728804164701536103180137503955397371] (by norm_num) (by norm_num) ?_ (by decide!) (by decide!)
  intro r hr
  simp only [List.mem_cons, List.mem_singleton, List.not_mem_nil, or_false] at hr
  rcases hr with rfl | rfl | rfl | rfl | rfl
  · norm_num
  · norm_num
  · norm_num
  · norm_num
  · exact prime_p8

theorem prime_n0 : Nat.Prime 1627771 := by
  refine pratt 1627771 3
    [2, 3, 5, 29, 1871] (by norm_num) (by norm_num) ?_ (by decide!) (by decide!)
  intro r hr
  simp only [List.mem_cons, List.mem_singleton, List.not_mem_nil, or_false] at hr
  rcases hr with rfl | rfl | rfl | rfl | rfl
  · norm_num
  · norm_num
  · norm_num
  · norm_num
  · norm_num

theorem prime_n1 : Nat.Prime 4681609 := by
  refine pratt 4681609 23
    [2, 2, 2, 3, 97, 2011] (by norm_num) (by norm_num) ?_ (by decide!) (by decide!)
  intro r hr
  simp only [List.mem_cons, List.mem_singleton, List.not_mem_nil, or_false] at hr
  rcases hr with rfl | rfl | rfl | rfl | rfl | rfl
  · norm_num
  · norm_num
  · norm_num
  · norm_num
  · norm_num
  · norm_num

theorem prime_n2 : Nat.Prime 44706919 := by
  refine pratt 44706919 6
    [2, 3, 797, 9349] (by norm_num) (by norm_num) ?_ (by decide!) (by decide!)
  intro r hr
  simp only [List.mem_cons, List.mem_singleton, List.not_mem_nil, or_false] at hr
  rcases hr with rfl | rfl | rfl | rfl
  · norm_num
  · norm_num
  · norm_num
  · norm_num

theorem prime_n3 : Nat.Prime 545358713 := by
  refine pratt 545358713 5
    [2, 2, 2, 41, 59, 28181] (by norm_num) (by norm_num) ?_ (by decide!) (by decide!)
  intro r hr
  simp only [List.mem_cons, List.mem_singleton, List.not_mem_nil, or_false] at hr
  rcases hr with rfl | rfl | rfl | rfl | rfl | rfl
  · norm_num
  · norm_num
  · norm_num
  · norm_num
  · norm_num
  · norm_num

theorem prime_n4 : Nat.Prime 297159362677 := by
  refine pratt 297159362677 2
    [2, 2, 3, 3, 11, 461, 1627771] (by norm_num) (by norm_num) ?_ (by decide!) (by decide!)
  intro r hr
  simp only [List.mem_cons, List.mem_singleton, List.not_mem_nil, or_false] at hr
  rcases hr with rfl | rfl | rfl | rfl | rfl | rfl | rfl
  · norm_num
  · norm_num
  · norm_num
  · norm_num
  · norm_num
  · norm_num
  · exact prime_n0

theorem prime_n5 : Nat.Prime 107361793816595537 := by
  refine pratt 107361793816595537 3
    [2, 2, 2, 2, 16699, 85831, 4681609] (by norm_num) (by norm_num) ?_ (by decide!) (by decide!)
  intro r hr
  simp only [List.mem_cons, List.mem_singleton, List.not_mem_nil, or_false] at hr
  rcases hr with rfl | rfl | rfl | rfl | rfl | rfl | rfl
  · norm_num
  · norm_num
  · norm_num
  · norm_num
  · norm_num
  · norm_num
  · exact prime_n1

theorem prime_n6 : Nat.Prime 174723607534414371449 := by
  refine pratt 174723607534414371449 3
    [2, 2, 2, 17, 59, 4051, 120233, 44706919] (by norm_num) (by norm_num) ?_ (by decide!) (by decide!)
  intro r hr
  simp only [List.mem_cons, List.mem_singleton, List.not_mem_nil, or_false] at hr
  rcases hr with rfl | rfl | rfl | rfl | rfl | rfl | rfl | rfl
  · norm_num
  · norm_num
  · norm_num
  · norm_num
  · norm_num
  · norm_num
  · norm_num
  · exact prime_n2

theorem prime_n7 : Nat.Prime 29047611873442575647497758179 := by
  refine pratt 29047611873442575647497758179 2
    [2, 293, 305873, 545358713, 297159362677] (by norm_num) (by norm_num) ?_ (by decide!) (by decide!)
  intro r hr
  simp only [List.mem_cons, List.mem_singleton, List.not_mem_nil, or_false] at hr
  rcases hr with rfl | rfl | rfl | rfl | rfl
  · norm_num
  · norm_num
  · norm_num
  · exact prime_n3
  · exact prime_n4

theorem prime_n8 : Nat.Prime 341948486974166000522343609283189 := by
  refine pratt 341948486974166000522343609283189 2
    [2, 2, 3, 3, 3, 109, 29047611873442575647497758179] (by norm_num) (by norm_num) ?_ (by decide!) (by decide!)
  intro r hr
  simp only [List.mem_cons, List.mem_singleton, List.not_mem_nil, or_false] at hr
  rcases hr with rfl | rfl | rfl | rfl | rfl | rfl | rfl
  · norm_num
  · norm_num
  · norm_num
  · norm_num
  · norm_num
  · norm_num
  · exact prime_n7

theorem prime_n9 : Nat.Prime 115792089237316195423570985008687907852837564279074904382605163141518161494337 := by
  refine pratt 115792089237316195423570985008687907852837564279074904382605163141518161494337 7
    [2, 2, 2, 2, 2, 2, 3, 149, 631, 107361793816595537, 174723607534414371449, 341948486974166000522343609283189] (by norm_num) (by norm_num) ?_ (by decide!) (by decide!)
  intro r hr
  simp only [List.mem_cons, List.mem_singleton, List.not_mem_nil, or_false] at hr
  rcases hr with rfl | rfl | rfl | rfl | rfl | rfl | rfl | rfl | rfl | rfl | rfl | rfl
  · norm_num
  · norm_num
  · norm_num
  · norm_num
  · norm_num
  · norm_num
  · norm_num
  · norm_num
  · norm_num
  · exact prime_n5
  · exact prime_n6
  · exact prime_n8

theorem modulo_prime : Nat.Prime modulo.toNat := prime_p9

theorem order_prime : Nat.Prime order.toNat := prime_n9


/-! ## Hexadecimal strings -/

theorem hexChar_spec : ∀ d, d < 16 →
    hexval (hexChar d) = some d ∧ isspace (hexChar d) = false ∧ hexChar d ≠ '-' := by
  decide

theorem digitsLoop_append (xs ys : List Char) : ∀ a : Nat,
    digitsLoop (xs ++ ys) a = (digitsLoop xs a).bind (fun b => digitsLoop ys b) := by
  induction xs with
  | nil => intro a; simp [digitsLoop]
  | cons c cs ih =>
    intro a
    simp only [List.cons_append, digitsLoop]
    split_ifs
    · exact ih a
    · cases hexval c with
      | none => simp
      | some d => simpa using ih _

theorem hexLoop_spec : ∀ (fuel n : Nat) (acc : List Char), n < 16 ^ (fuel + 1) →
    ∃ (d : Nat) (tl : List Char), d < 16 ∧ hexLoop (fuel + 1) n acc = (hexChar d :: tl) ++ acc ∧
      ∀ a : Nat, digitsLoop (hexChar d :: tl) a = some (a * 16 ^ (tl.length + 1) + n) := by
  intro fuel
  induction fuel with
  | zero =>
    intro n acc hn
    have hn : n < 16 := by simpa using hn
    refine ⟨n, [], hn, by simp [hexLoop, hn], ?_⟩
    intro a
    obtain ⟨h1, h2, _⟩ := hexChar_spec n hn
    simp [digitsLoop, h1, h2]; ring
  | succ fuel ih =>
    intro n acc hn
    by_cases h16 : n < 16
    · refine ⟨n, [], h16, by simp [hexLoop, h16], ?_⟩
      intro a
      obtain ⟨h1, h2, _⟩ := hexChar_spec n h16
      simp [digitsLoop, h1, h2]; ring
    · have hdiv : n / 16 < 16 ^ (fuel + 1) := by
        rw [Nat.div_lt_iff_lt_mul (by norm_num)]
        rw [pow_succ] at hn; exact hn
      obtain ⟨d, tl, hd, heq, hdig⟩ := ih (n / 16) (hexChar (n % 16) :: acc) hdiv
      refine ⟨d, tl ++ [hexChar (n % 16)], hd, ?_, ?_⟩
      · rw [hexLoop, if_neg h16, heq]; simp
      · intro a
        have hmod : n % 16 < 16 := Nat.mod_lt _ (by norm_num)
        obtain ⟨h1, h2, _⟩ := hexChar_spec (n % 16) hmod
        rw [← List.cons_append, digitsLoop_append, hdig a]
        simp only [Option.some_bind, digitsLoop, h2, h1, List.length_append, List.length_singleton]
        simp only [Bool.false_eq_true, if_false]
        congr 1
        have hdm := Nat.div_add_mod n 16
        have e : 16 ^ (tl.length + 1 + 1) = 16 * 16 ^ (tl.length + 1) := by ring
        rw [e]
        linarith

theorem hexChar_ne_nul : ∀ d, d < 16 → hexChar d ≠ Char.ofNat 0 := by
  decide

theorem hexLoop_no_nul : ∀ (fuel n : Nat) (acc : List Char),
    (∀ c ∈ acc, c ≠ Char.ofNat 0) → ∀ c ∈ hexLoop fuel n acc, c ≠ Char.ofNat 0 := by
  intro fuel
  induction fuel with
  | zero => intro n acc h; simpa [hexLoop] using h
  | succ fuel ih =>
    intro n acc h
    rw [hexLoop]
    split_ifs with h16
    · intro c hc
      rcases List.mem_cons.1 hc with rfl | hc
      · exact hexChar_ne_nul n h16
      · exact h c hc
    · apply ih
      intro c hc
      rcases List.mem_cons.1 hc with rfl | hc
      · exact hexChar_ne_nul _ (Nat.mod_lt _ (by norm_num))
      · exact h c hc

/-- A string without NUL is its own C string. -/
theorem c_str_of_no_nul (s : List Char) (h : ∀ c ∈ s, c ≠ Char.ofNat 0) : c_str s = s := by
  unfold c_str
  rw [List.takeWhile_eq_self_iff]
  intro c hc
  simpa using h c hc

theorem mpz_set_str16_get_str16 (x : Int) (hx : 0 ≤ x) :
    mpz_set_str16 (mpz_get_str16 x) = some x := by
  obtain ⟨n, rfl⟩ := Int.eq_ofNat_of_zero_le hx
  have hlt : n < 16 ^ (n + 1) := lt_trans (Nat.lt_pow_self (by norm_num) n) (Nat.pow_lt_pow_right (by norm_num) (by omega))
  obtain ⟨d, tl, hd, heq, hdig⟩ := hexLoop_spec n n [] hlt
  obtain ⟨h1, h2, h3⟩ := hexChar_spec d hd
  have hnn : ¬ ((n : Int) < 0) := by omega
  have hnul := c_str_of_no_nul _ (hexLoop_no_nul (n + 1) n [] (by simp))
  simp only [mpz_get_str16, hnn, if_false, Int.natAbs_ofNat]
  unfold mpz_set_str16
  rw [hnul]
  simp only [heq, List.append_nil]
  rw [List.dropWhile_cons_of_neg (by simp [h2])]
  simp only [h3, if_false, isxdigit, h1, Option.isSome_some, if_true, hdig 0]
  simp

/-! ## The prime field -/

theorem modulo_toNat_cast : ((modulo.toNat : Nat) : Int) = modulo := by decide

theorem modulo_natAbs : modulo.natAbs = modulo.toNat := by decide

theorem one_lt_modulo : 1 < modulo.toNat := by decide

theorem cast_modulo : ((modulo : Int) : ZMod modulo.toNat) = 0 := by
  rw [ZMod.intCast_zmod_eq_zero_iff_dvd, modulo_toNat_cast]

theorem cast_tmod (a : Int) : ((a.tmod modulo : Int) : ZMod modulo.toNat) = (a : ZMod modulo.toNat) := by
  have h := Int.tmod_add_tdiv a modulo
  have h2 : a.tmod modulo = a - modulo * a.tdiv modulo := by linarith
  rw [h2]; push_cast; rw [cast_modulo]; ring

theorem cast_emod (a : Int) : ((a % modulo : Int) : ZMod modulo.toNat) = (a : ZMod modulo.toNat) := by
  have h := Int.emod_add_ediv a modulo
  have h2 : a % modulo = a - modulo * (a / modulo) := by linarith
  rw [h2]; push_cast; rw [cast_modulo]; ring

/-- Two reduced integers with the same residue are equal. -/
theorem eq_of_cast_eq (a b : Int) (ha : 0 ≤ a ∧ a < modulo) (hb : 0 ≤ b ∧ b < modulo)
    (h : (a : ZMod modulo.toNat) = (b : ZMod modulo.toNat)) : a = b := by
  rw [ZMod.intCast_eq_intCast_iff, modulo_toNat_cast] at h
  have h1 := Int.emod_eq_of_lt ha.1 ha.2
  have h2 := Int.emod_eq_of_lt hb.1 hb.2
  unfold Int.ModEq at h
  omega

theorem mpz_powm_spec (b e : Int) :
    ((mpz_powm b e modulo : Int) : ZMod modulo.toNat) = (b : ZMod modulo.toNat) ^ e.toNat ∧
      0 ≤ mpz_powm b e modulo ∧ mpz_powm b e modulo < modulo := by
  have hm : 0 < modulo.toNat := by have := one_lt_modulo; omega
  unfold mpz_powm
  rw [modulo_natAbs, Nat.mod_eq_of_lt one_lt_modulo, powmLoop_pow _ _ _ one_lt_modulo]
  refine ⟨?_, Int.ofNat_nonneg _, ?_⟩
  · have hb : (((b % modulo).toNat : Nat) : ZMod modulo.toNat) = (b : ZMod modulo.toNat) := by
      have h0 : 0 ≤ b % modulo := Int.emod_nonneg _ (by decide)
      have : (((b % modulo).toNat : Nat) : Int) = b % modulo := Int.toNat_of_nonneg h0
      rw [← cast_emod b, ← this]; simp
    simp only [Int.ofNat_eq_coe, Int.cast_natCast, ZMod.natCast_mod, Nat.cast_pow, hb]
  · have := Nat.mod_lt ((b % modulo).toNat ^ e.toNat) hm
    exact lt_of_lt_of_eq (Int.ofNat_lt.2 this) modulo_toNat_cast

/-- No field element has cube `-7`: the curve has no point with `y = 0`. -/
theorem cube_add_seven_ne_zero (u : ZMod modulo.toNat) : u ^ 3 + 7 ≠ 0 := by
  haveI : Fact (Nat.Prime modulo.toNat) := ⟨modulo_prime⟩
  intro h
  have h7 : (7 : ZMod modulo.toNat) ≠ 0 := by
    have : ((7 : Nat) : ZMod modulo.toNat) ≠ 0 := by
      rw [Ne, ZMod.natCast_zmod_eq_zero_iff_dvd]; decide
    simpa using this
  have hu : u ≠ 0 := by
    rintro rfl
    apply h7; simpa using h
  have hcube : u ^ 3 = ((modulo.toNat - 7 : Nat) : ZMod modulo.toNat) := by
    rw [Nat.cast_sub (by decide)]
    simp only [ZMod.natCast_self, Nat.cast_ofNat, zero_sub]
    linear_combination h
  have hpow : ((modulo.toNat - 7 : Nat) : ZMod modulo.toNat) ^ ((modulo.toNat - 1) / 3) = 1 := by
    rw [← hcube, ← pow_mul]
    have : 3 * ((modulo.toNat - 1) / 3) = modulo.toNat - 1 := by decide
    rw [this]
    exact ZMod.pow_card_sub_one_eq_one hu
  rw [natCast_pow_eq_one_iff _ _ _ one_lt_modulo] at hpow
  revert hpow
  decide!

theorem X2Y_on_curve (x y : Int) (hy : 0 ≤ y ∧ y < modulo)
    (hc : OnCurve (x, y)) : X2Y x (y % 2) = y ∧ y ≠ 0 := by
  haveI : Fact (Nat.Prime modulo.toNat) := ⟨modulo_prime⟩
  have hF : ((y : Int) : ZMod modulo.toNat) ^ 2 = (x : ZMod modulo.toNat) ^ 3 + 7 := by
    have h1 : (((y * y - (x * x * x + 7) : Int)) : ZMod modulo.toNat) = 0 := by
      rw [ZMod.intCast_zmod_eq_zero_iff_dvd, modulo_toNat_cast]
      exact Int.dvd_of_emod_eq_zero hc
    push_cast at h1
    linear_combination h1
  have hy0F : (y : ZMod modulo.toNat) ≠ 0 := by
    intro h0
    apply cube_add_seven_ne_zero (x : ZMod modulo.toNat)
    rw [← hF, h0]; ring
  have hy0 : y ≠ 0 := by
    rintro rfl; exact hy0F (by simp)
  refine ⟨?_, hy0⟩
  obtain ⟨hpc, hp0, hp1⟩ := mpz_powm_spec (((x * x * x).tmod modulo + 7).tmod modulo)
    ((modulo + 1).tdiv 4)
  have hsq : ((mpz_powm (((x * x * x).tmod modulo + 7).tmod modulo) ((modulo + 1).tdiv 4) modulo : Int)
      : ZMod modulo.toNat) ^ 2 = (y : ZMod modulo.toNat) ^ 2 := by
    rw [hpc, cast_tmod]
    push_cast
    rw [cast_tmod]
    have : ((x * x * x : Int) : ZMod modulo.toNat) + 7 = (y : ZMod modulo.toNat) ^ 2 := by
      rw [hF]; push_cast; ring
    rw [this, ← pow_mul, ← pow_mul]
    have he : 2 * (((modulo + 1).tdiv 4).toNat * 2) = (modulo.toNat - 1) + 2 := by decide
    rw [he, pow_add, ZMod.pow_card_sub_one_eq_one hy0F, one_mul]
  unfold X2Y
  simp only
  rcases sq_eq_sq_iff_eq_or_eq_neg.1 hsq with h | h
  · have hY := eq_of_cast_eq _ _ ⟨hp0, hp1⟩ hy h
    rw [hY, Int.tmod_eq_emod hy.1 (by decide)]
    simp
  · have hY : mpz_powm (((x * x * x).tmod modulo + 7).tmod modulo) ((modulo + 1).tdiv 4) modulo
        = modulo - y := by
      apply eq_of_cast_eq _ _ ⟨hp0, hp1⟩
      · constructor <;> omega
      · rw [h]; push_cast; rw [cast_modulo]; ring
    rw [hY, Int.tmod_eq_emod (by omega) (by decide)]
    have hodd : modulo % 2 = 1 := by decide
    have : (modulo - y) % 2 ≠ y % 2 := by omega
    rw [if_pos this]; ring

theorem stoi_02 : stoi ['0', '2'] = some 2 := by decide
theorem stoi_03 : stoi ['0', '3'] = some 3 := by decide

/-! ## Inversion and reduction modulo `p` -/

theorem invertLoop_spec (p a : Nat) (hp : 1 < p) : ∀ (fuel r0 r1 t0 t1 : Nat),
    r1 < fuel → Nat.gcd r0 r1 = 1 →
    (r0 : ZMod p) = (t0 : ZMod p) * a → (r1 : ZMod p) = (t1 : ZMod p) * a →
    ∃ t, invertLoop p fuel r0 r1 t0 t1 = some t ∧ (t : ZMod p) * a = 1 := by
  intro fuel
  induction fuel with
  | zero => intro r0 r1 t0 t1 h; omega
  | succ fuel ih =>
    intro r0 r1 t0 t1 hlt hg h0 h1
    unfold invertLoop
    by_cases hr : r1 = 0
    · subst hr
      have : r0 = 1 := by simpa using hg
      subst this
      refine ⟨t0, by simp, ?_⟩
      rw [← h0]; simp
    · rw [if_neg hr]
      have hpos : 0 < r1 := Nat.pos_of_ne_zero hr
      apply ih
      · have := Nat.mod_lt r0 hpos; omega
      · rw [Nat.gcd_comm, ← Nat.gcd_rec, Nat.gcd_comm]; exact hg
      · exact h1
      · have hle : r0 / r1 * t1 % p ≤ p := (Nat.mod_lt _ (by omega)).le
        have hmod : r0 % r1 = r0 - r1 * (r0 / r1) := by
          have := Nat.mod_add_div r0 r1; omega
        have hle2 : r1 * (r0 / r1) ≤ r0 := Nat.mul_div_le r0 r1
        rw [hmod, Nat.cast_sub hle2]
        simp only [ZMod.natCast_mod, Nat.cast_add, Nat.cast_sub hle, Nat.cast_mul,
          ZMod.natCast_self, zero_sub]
        rw [h0, h1]; ring

theorem mpz_invert_spec (d : Int) (hd : (d : ZMod modulo.toNat) ≠ 0) :
    ∃ inv, mpz_invert d modulo = some inv ∧
      (inv : ZMod modulo.toNat) = (d : ZMod modulo.toNat)⁻¹ := by
  haveI : Fact (Nat.Prime modulo.toNat) := ⟨modulo_prime⟩
  have h0 : 0 ≤ d % modulo := Int.emod_nonneg _ (by decide)
  have hlt : d % modulo < modulo := Int.emod_lt_of_pos _ (by decide)
  have hcast : (((d % modulo).toNat : Nat) : ZMod modulo.toNat) = (d : ZMod modulo.toNat) := by
    have : (((d % modulo).toNat : Nat) : Int) = d % modulo := Int.toNat_of_nonneg h0
    rw [← cast_emod d, ← this]; simp
  have hcop : Nat.gcd modulo.toNat (d % modulo).toNat = 1 := by
    rw [← Nat.coprime_iff_gcd_eq_one, Nat.Prime.coprime_iff_not_dvd modulo_prime,
      ← ZMod.natCast_zmod_eq_zero_iff_dvd, hcast]
    exact hd
  obtain ⟨t, ht, hta⟩ := invertLoop_spec modulo.toNat (d % modulo).toNat one_lt_modulo
    (modulo.toNat + 1) modulo.toNat (d % modulo).toNat 0 1
    (by have : ((d % modulo).toNat : Int) < modulo.toNat := by
          rw [Int.toNat_of_nonneg h0, modulo_toNat_cast]; exact hlt
        omega)
    hcop (by simp) (by simp)
  refine ⟨Int.ofNat t, ?_, ?_⟩
  · unfold mpz_invert
    rw [modulo_natAbs, ht]; rfl
  · rw [hcast] at hta
    simp only [Int.ofNat_eq_coe, Int.cast_natCast]
    exact eq_inv_of_mul_eq_one_left hta

/-- The reduction `v % p; if (v < 0) v += p` of `add`. -/
theorem reduce_spec (a : Int) :
    (0 ≤ (if a.tmod modulo < 0 then a.tmod modulo + modulo else a.tmod modulo)) ∧
    (if a.tmod modulo < 0 then a.tmod modulo + modulo else a.tmod modulo) < modulo ∧
    (((if a.tmod modulo < 0 then a.tmod modulo + modulo else a.tmod modulo : Int))
      : ZMod modulo.toNat) = (a : ZMod modulo.toNat) := by
  have hpos : (0 : Int) < modulo := by decide
  have h1 : a.tmod modulo < modulo := Int.tmod_lt_of_pos a hpos
  have h2 : -modulo < a.tmod modulo := by
    rcases le_or_lt 0 a with ha | ha
    · have := Int.tmod_nonneg modulo ha; omega
    · have h3 : (-a).tmod modulo < modulo := Int.tmod_lt_of_pos _ hpos
      rw [Int.tmod_def, Int.neg_tdiv] at h3
      rw [Int.tmod_def]
      linarith
  split_ifs with h
  · refine ⟨by omega, by omega, ?_⟩
    push_cast; rw [cast_tmod, cast_modulo]; ring
  · exact ⟨by omega, h1, cast_tmod a⟩

open WeierstrassCurve.Affine

/-! ## Program points and curve points -/

theorem seven_ne_zero : (7 : ZMod modulo.toNat) ≠ 0 := by
  have : ((7 : Nat) : ZMod modulo.toNat) ≠ 0 := by
    rw [Ne, ZMod.natCast_zmod_eq_zero_iff_dvd]; decide
  simpa using this

theorem two_ne_zero_mod : (2 : ZMod modulo.toNat) ≠ 0 := by
  have : ((2 : Nat) : ZMod modulo.toNat) ≠ 0 := by
    rw [Ne, ZMod.natCast_zmod_eq_zero_iff_dvd]; decide
  simpa using this

theorem secp_equation_iff (x y : ZMod modulo.toNat) : secp.Equation x y ↔ y ^ 2 = x ^ 3 + 7 := by
  rw [equation_iff]; simp [secp]

theorem secp_negY (x y : ZMod modulo.toNat) : secp.negY x y = -y := by
  simp [negY, secp]

theorem secp_nonsingular {x y : ZMod modulo.toNat} (h : secp.Equation x y) :
    secp.Nonsingular x y := by
  apply nonsingular_of_Δ_ne_zero _ h
  have h21168 : ((21168 : Nat) : ZMod modulo.toNat) ≠ 0 := by
    rw [Ne, ZMod.natCast_zmod_eq_zero_iff_dvd]; decide
  have : WeierstrassCurve.Δ secp = -((21168 : Nat) : ZMod modulo.toNat) := by
    simp [WeierstrassCurve.Δ, WeierstrassCurve.b₂, WeierstrassCurve.b₄, WeierstrassCurve.b₆,
      WeierstrassCurve.b₈, secp]
    ring
  rw [this]; exact neg_ne_zero.2 h21168

theorem not_equation_zero : ¬ secp.Equation (0 : ZMod modulo.toNat) 0 := by
  rw [secp_equation_iff]
  intro h
  apply seven_ne_zero
  have : (7 : ZMod modulo.toNat) = 0 ^ 2 - 0 ^ 3 := by rw [h]; ring
  rw [this]; ring

/-- Integer form of the curve equation. -/
theorem onCurve_iff_equation (P : Point) :
    OnCurve P ↔ secp.Equation (P.1 : ZMod modulo.toNat) (P.2 : ZMod modulo.toNat) := by
  rw [secp_equation_iff, OnCurve]
  have hdvd : (P.2 * P.2 - (P.1 * P.1 * P.1 + 7)) % modulo = 0 ↔
      (((P.2 * P.2 - (P.1 * P.1 * P.1 + 7) : Int)) : ZMod modulo.toNat) = 0 := by
    rw [ZMod.intCast_zmod_eq_zero_iff_dvd, modulo_toNat_cast]
    exact Int.dvd_iff_emod_eq_zero.symm
  rw [hdvd]
  push_cast
  constructor
  · intro h; linear_combination h
  · intro h; linear_combination h

theorem rep_zero : Rep Z 0 := Or.inl ⟨rfl, rfl⟩

theorem rep_some {X Y : ZMod modulo.toNat} (h : secp.Nonsingular X Y) (P : Point)
    (hr : Reduced P) (hx : (P.1 : ZMod modulo.toNat) = X) (hy : (P.2 : ZMod modulo.toNat) = Y) :
    Rep P (Point.some h) := by
  subst hx hy
  exact Or.inr ⟨hr, h, rfl⟩

theorem Rep.eq_zero {A : secp.Point} (h : Rep Z A) : A = 0 := by
  rcases h with ⟨_, h⟩ | ⟨_, h, _⟩
  · exact h
  · exact absurd (by simpa [Z] using h.1) not_equation_zero

theorem Rep.eq_Z {P : Point} (h : Rep P 0) : P = Z := by
  rcases h with ⟨h, _⟩ | ⟨_, h, h0⟩
  · exact h
  · exact absurd h0.symm (Point.some_ne_zero h)

theorem Rep.affine {P : Point} {A : secp.Point} (h : Rep P A) (hP : P ≠ Z) :
    Reduced P ∧ ∃ h : secp.Nonsingular (P.1 : ZMod modulo.toNat) (P.2 : ZMod modulo.toNat),
      A = Point.some h := by
  rcases h with ⟨h, _⟩ | h
  · exact absurd h hP
  · exact h

theorem Rep.unique {P : Point} {A B : secp.Point} (hA : Rep P A) (hB : Rep P B) : A = B := by
  by_cases hP : P = Z
  · subst hP; rw [hA.eq_zero, hB.eq_zero]
  · obtain ⟨_, h1, rfl⟩ := hA.affine hP
    obtain ⟨_, h2, rfl⟩ := hB.affine hP
    rfl

/-- A point denoting a curve point other than infinity is reduced, on the curve, and not the
sentinel. -/
theorem Rep.onCurve {P : Point} {A : secp.Point} (h : Rep P A) (hA : A ≠ 0) :
    Reduced P ∧ OnCurve P ∧ P ≠ Z := by
  have hP : P ≠ Z := by
    rintro rfl; exact hA h.eq_zero
  obtain ⟨hr, hns, _⟩ := h.affine hP
  exact ⟨hr, (onCurve_iff_equation P).2 hns.1, hP⟩

theorem rep_of_onCurve (P : Point) (hr : Reduced P) (hc : OnCurve P) :
    Rep P (Point.some (secp_nonsingular ((onCurve_iff_equation P).1 hc))) :=
  Or.inr ⟨hr, _, rfl⟩

/-! ## The program's `add` against the group law -/

/-- The last four statements of `add`, for a slope `lm`. -/
theorem add_tail_spec (x1 y1 x2 lm : Int) (L : ZMod modulo.toNat)
    (hL : (lm : ZMod modulo.toNat) = L) (x y : Int)
    (hx : x = if (lm * lm - x1 - x2).tmod modulo < 0 then (lm * lm - x1 - x2).tmod modulo + modulo
      else (lm * lm - x1 - x2).tmod modulo)
    (hy : y = if (lm * (x1 - x) - y1).tmod modulo < 0 then (lm * (x1 - x) - y1).tmod modulo + modulo
      else (lm * (x1 - x) - y1).tmod modulo) :
    Reduced (x, y) ∧ (x : ZMod modulo.toNat) = L ^ 2 - x1 - x2 ∧
      (y : ZMod modulo.toNat) = L * (x1 - (L ^ 2 - x1 - x2)) - y1 := by
  obtain ⟨a1, a2, a3⟩ := reduce_spec (lm * lm - x1 - x2)
  obtain ⟨b1, b2, b3⟩ := reduce_spec (lm * (x1 - x) - y1)
  rw [← hx] at a1 a2 a3
  rw [← hy] at b1 b2 b3
  have hxF : (x : ZMod modulo.toNat) = L ^ 2 - x1 - x2 := by
    rw [a3]; push_cast; rw [hL]; ring
  refine ⟨⟨a1, a2, b1, b2⟩, hxF, ?_⟩
  rw [b3]; push_cast; rw [hL, hxF]

/-- The branch `P != Q` of `add`. -/
theorem add_ne_eq (P Q : Point) (hP : P ≠ Z) (hQ : Q ≠ Z) (hne : P ≠ Q) (lm : Int)
    (hlm : lm = ((Q.2 - P.2) * (mpz_invert (Q.1 - P.1) modulo).getD 0).tmod modulo) :
    ∃ x y, add P Q = (x, y) ∧
      (x = if (lm * lm - P.1 - Q.1).tmod modulo < 0 then (lm * lm - P.1 - Q.1).tmod modulo + modulo
        else (lm * lm - P.1 - Q.1).tmod modulo) ∧
      (y = if (lm * (P.1 - x) - P.2).tmod modulo < 0 then (lm * (P.1 - x) - P.2).tmod modulo + modulo
        else (lm * (P.1 - x) - P.2).tmod modulo) := by
  refine ⟨_, _, ?_, rfl, rfl⟩
  subst hlm
  simp [add, hP, hQ, hne]

/-- The doubling branch of `add` for a point with `y ≠ 0`. -/
theorem add_self_eq (P : Point) (hP : P ≠ Z) (hy : P.2 ≠ 0) (lm : Int)
    (hlm : lm = ((3 * P.1 * P.1) * (mpz_invert (2 * P.2) modulo).getD 0).tmod modulo) :
    ∃ x y, add P P = (x, y) ∧
      (x = if (lm * lm - P.1 - P.1).tmod modulo < 0 then (lm * lm - P.1 - P.1).tmod modulo + modulo
        else (lm * lm - P.1 - P.1).tmod modulo) ∧
      (y = if (lm * (P.1 - x) - P.2).tmod modulo < 0 then (lm * (P.1 - x) - P.2).tmod modulo + modulo
        else (lm * (P.1 - x) - P.2).tmod modulo) := by
  refine ⟨_, _, ?_, rfl, rfl⟩
  subst hlm
  simp [add, hP, hy]

theorem cast_ne_zero_of_reduced (a : Int) (h0 : 0 ≤ a) (h1 : a < modulo) (hne : a ≠ 0) :
    (a : ZMod modulo.toNat) ≠ 0 := by
  intro h
  exact hne (eq_of_cast_eq a 0 ⟨h0, h1⟩ ⟨le_refl _, by decide⟩ (by simpa using h))

theorem add_rep [Fact (Nat.Prime modulo.toNat)] {P Q : Point} {A B : secp.Point}
    (hP : Rep P A) (hQ : Rep Q B) (hok : addOk P Q = true) : Rep (add P Q) (A + B) := by
  by_cases hPZ : P = Z
  · subst hPZ; rw [hP.eq_zero, zero_add]; simpa [add] using hQ
  by_cases hQZ : Q = Z
  · subst hQZ; rw [hQ.eq_zero, add_zero]; simpa [add, hPZ] using hP
  obtain ⟨hrP, h1, rfl⟩ := hP.affine hPZ
  obtain ⟨hrQ, h2, rfl⟩ := hQ.affine hQZ
  by_cases hne : P = Q
  · subst hne
    by_cases hy : P.2 = 0
    · have hz : add P P = Z := by simp [add, hPZ, hy]
      rw [hz, Point.add_self_of_Y_eq (by rw [secp_negY, hy]; simp)]
      exact rep_zero
    · have hyF : (P.2 : ZMod modulo.toNat) ≠ 0 := cast_ne_zero_of_reduced _ hrP.2.2.1 hrP.2.2.2 hy
      have hYne : (P.2 : ZMod modulo.toNat) ≠ secp.negY P.1 P.2 := by
        rw [secp_negY]
        intro h
        have : (2 : ZMod modulo.toNat) * P.2 = 0 := by linear_combination h
        rcases mul_eq_zero.1 this with h' | h'
        · exact two_ne_zero_mod h'
        · exact hyF h'
      obtain ⟨inv, hinv, hinvF⟩ := mpz_invert_spec (2 * P.2)
        (by push_cast; exact mul_ne_zero two_ne_zero_mod hyF)
      obtain ⟨x, y, hadd, hx, hy'⟩ := add_self_eq P hPZ hy _ rfl
      rw [hinv, Option.getD_some] at hx hy'
      obtain ⟨hred, hxF, hyF'⟩ := add_tail_spec P.1 P.2 P.1 _ _ rfl x y hx hy'
      rw [hadd, Point.add_self_of_Y_ne hYne]
      have hslope : secp.slope (P.1 : ZMod modulo.toNat) P.1 P.2 P.2
          = (((3 * P.1 * P.1 * inv).tmod modulo : Int) : ZMod modulo.toNat) := by
        rw [slope_of_Y_ne rfl hYne, cast_tmod, secp_negY]
        push_cast
        rw [hinvF]
        simp only [secp]
        push_cast
        field_simp
        ring
      refine rep_some _ (x, y) hred ?_ ?_
      · rw [hslope]; simp only [addX, secp]; rw [hxF]; ring
      · rw [hslope]; simp only [addY, negAddY, addX, negY, secp]; rw [hyF']; ring
  · have hxne : P.1 ≠ Q.1 := by
      simp only [addOk, hPZ, hQZ, hne, false_or, decide_False, Bool.false_or,
        decide_eq_true_eq] at hok
      simpa using hok
    have hxF : (P.1 : ZMod modulo.toNat) ≠ Q.1 := fun h =>
      hxne (eq_of_cast_eq _ _ ⟨hrP.1, hrP.2.1⟩ ⟨hrQ.1, hrQ.2.1⟩ h)
    obtain ⟨inv, hinv, hinvF⟩ := mpz_invert_spec (Q.1 - P.1)
      (by push_cast; exact sub_ne_zero.2 (Ne.symm hxF))
    obtain ⟨x, y, hadd, hx, hy'⟩ := add_ne_eq P Q hPZ hQZ hne _ rfl
    rw [hinv, Option.getD_some] at hx hy'
    obtain ⟨hred, hxF', hyF'⟩ := add_tail_spec P.1 P.2 Q.1 _ _ rfl x y hx hy'
    rw [hadd, Point.add_of_X_ne hxF]
    have hslope : secp.slope (P.1 : ZMod modulo.toNat) Q.1 P.2 Q.2
        = ((((Q.2 - P.2) * inv).tmod modulo : Int) : ZMod modulo.toNat) := by
      rw [slope_of_X_ne hxF, cast_tmod]
      push_cast
      rw [hinvF]
      have h1 : (P.1 : ZMod modulo.toNat) - Q.1 ≠ 0 := sub_ne_zero.2 hxF
      have h2 : (Q.1 : ZMod modulo.toNat) - P.1 ≠ 0 := sub_ne_zero.2 (Ne.symm hxF)
      field_simp
      ring
    refine rep_some _ (x, y) hred ?_ ?_
    · rw [hslope]; simp only [addX, secp]; rw [hxF']; ring
    · rw [hslope]; simp only [addY, negAddY, addX, negY, secp]; rw [hyF']; ring

/-! ## The ladder of `mul` -/

theorem addOk_of_add_ne_zero [Fact (Nat.Prime modulo.toNat)] {P Q : Point} {A B : secp.Point}
    (hP : Rep P A) (hQ : Rep Q B) (h : A + B ≠ 0) : addOk P Q = true := by
  by_contra hok
  have hPZ : P ≠ Z := by rintro rfl; simp [addOk] at hok
  have hQZ : Q ≠ Z := by rintro rfl; simp [addOk] at hok
  have hne : P ≠ Q := by rintro rfl; simp [addOk] at hok
  have hx : P.1 = Q.1 := by
    by_contra hx; simp [addOk, hx] at hok
  obtain ⟨hrP, h1, rfl⟩ := hP.affine hPZ
  obtain ⟨hrQ, h2, rfl⟩ := hQ.affine hQZ
  have hxF : (P.1 : ZMod modulo.toNat) = Q.1 := by rw [hx]
  rcases Y_eq_of_X_eq h1.1 h2.1 hxF with hy | hy
  · exact hne (Prod.ext hx (eq_of_cast_eq _ _ ⟨hrP.2.2.1, hrP.2.2.2⟩ ⟨hrQ.2.2.1, hrQ.2.2.2⟩ hy))
  · exact h (Point.add_of_Y_eq hxF hy)

theorem addOk_self (P : Point) : addOk P P = true := by simp [addOk]

theorem lt_two_pow_bitLen : ∀ (fuel n : Nat), n ≤ fuel → n < 2 ^ bitLen fuel n := by
  intro fuel
  induction fuel with
  | zero => intro n h; simp [bitLen]; omega
  | succ fuel ih =>
    intro n h
    unfold bitLen
    split_ifs with h2
    · omega
    · have := ih (n / 2) (by omega)
      rw [pow_succ]; omega

theorem div_two_pow_succ (n i : Nat) :
    n / 2 ^ i = 2 * (n / 2 ^ (i + 1)) + (if n.testBit i then 1 else 0) := by
  rw [Nat.testBit_to_div_mod, pow_succ, ← Nat.div_div_eq_div_mul]
  by_cases h : n / 2 ^ i % 2 = 1
  · simp [h]; omega
  · simp [h]; omega

theorem mulLoop_rep [Fact (Nat.Prime modulo.toNat)] (n : Nat) (g : secp.Point) :
    ∀ (i : Nat) (R0 R1 : Point), Rep R0 ((n / 2 ^ i) • g) →
      (i = 0 ∨ Rep R1 ((n / 2 ^ i + 1) • g)) →
      (mulLoopOk n modulo i R0 R1 = true ∨ ∀ m : Nat, 0 < m → m ≤ n → m • g ≠ 0) →
      Rep (mulLoop n modulo i R0 R1) (n • g) := by
  intro i
  induction i with
  | zero => intro R0 R1 h0 _ _; simpa [mulLoop] using h0
  | succ i ih =>
    intro R0 R1 h0 h1 hs
    have h1 : Rep R1 ((n / 2 ^ (i + 1) + 1) • g) := by
      rcases h1 with h | h
      · omega
      · exact h
    have hdiv := div_two_pow_succ n i
    have hsum : (n / 2 ^ (i + 1)) • g + (n / 2 ^ (i + 1) + 1) • g
        = (2 * (n / 2 ^ (i + 1)) + 1) • g := by
      rw [← add_nsmul]; congr 1; ring
    have htb : (n : Int).testBit i = n.testBit i := rfl
    have hsplit : mulLoopOk n modulo (i + 1) R0 R1 = true →
        ((!(n.testBit i) && i == 0) || addOk R0 R1) = true ∧
        (if n.testBit i then mulLoopOk n modulo i (add R0 R1 modulo) (add R1 R1 modulo)
          else mulLoopOk n modulo i (add R0 R0 modulo) (add R0 R1 modulo)) = true := by
      intro h
      unfold mulLoopOk at h
      rw [htb] at h
      exact Bool.and_eq_true_iff.1 h
    unfold mulLoop
    rw [htb]
    rcases Bool.eq_false_or_eq_true (n.testBit i) with hb | hb
    · simp only [hb, if_true] at hdiv hsplit ⊢
      have hok : addOk R0 R1 = true := by
        rcases hs with hs | hs
        · simpa using (hsplit hs).1
        · apply addOk_of_add_ne_zero h0 h1
          rw [hsum]
          apply hs _ (by omega)
          rw [← hdiv]
          exact Nat.div_le_self _ _
      apply ih
      · have := add_rep h0 h1 hok
        rwa [hsum, ← hdiv] at this
      · right
        have := add_rep h1 h1 (addOk_self R1)
        rw [← add_nsmul] at this
        have e : n / 2 ^ (i + 1) + 1 + (n / 2 ^ (i + 1) + 1) = n / 2 ^ i + 1 := by omega
        rwa [e] at this
      · rcases hs with hs | hs
        · exact Or.inl (hsplit hs).2
        · exact Or.inr hs
    · simp only [hb, if_false, Bool.false_eq_true] at hdiv hsplit ⊢
      apply ih
      · have := add_rep h0 h0 (addOk_self R0)
        rw [← add_nsmul] at this
        have e : n / 2 ^ (i + 1) + n / 2 ^ (i + 1) = n / 2 ^ i := by omega
        rwa [e] at this
      · by_cases hi : i = 0
        · exact Or.inl hi
        · right
          have hok : addOk R0 R1 = true := by
            rcases hs with hs | hs
            · simpa [hi] using (hsplit hs).1
            · by_cases ha : n / 2 ^ (i + 1) = 0
              · rw [ha, zero_nsmul] at h0
                rw [h0.eq_Z]; simp [addOk]
              · apply addOk_of_add_ne_zero h0 h1
                rw [hsum]
                apply hs _ (by omega)
                have hle : n / 2 ^ i * 2 ^ i ≤ n := Nat.div_mul_le_self n (2 ^ i)
                have h2i : 2 ≤ 2 ^ i := by
                  calc 2 = 2 ^ 1 := by norm_num
                    _ ≤ 2 ^ i := Nat.pow_le_pow_right (by norm_num) (by omega)
                have : n / 2 ^ i * 2 ≤ n / 2 ^ i * 2 ^ i := Nat.mul_le_mul_left _ h2i
                omega
          have := add_rep h0 h1 hok
          have e : 2 * (n / 2 ^ (i + 1)) + 1 = n / 2 ^ i + 1 := by omega
          rwa [hsum, e] at this
      · rcases hs with hs | hs
        · exact Or.inl (hsplit hs).2
        · exact Or.inr hs

/-- The result of `mul n` denotes `n • g` when the run of the ladder meets no call of `add`
on two different points with the same abscissa; this holds in particular when no multiple
`m • g` with `0 < m ≤ n` vanishes. -/
theorem mul_rep [Fact (Nat.Prime modulo.toNat)] (n : Nat) (g : secp.Point) (hg : Rep PG g)
    (hs : mulLoopOk n modulo (mpz_sizeinbase2 n) Z PG = true ∨
      ∀ m : Nat, 0 < m → m ≤ n → m • g ≠ 0) :
    Rep (mul (n : Int)) (n • g) := by
  unfold mul
  have hz : n / 2 ^ mpz_sizeinbase2 (n : Int) = 0 :=
    Nat.div_eq_of_lt (by simpa [mpz_sizeinbase2] using lt_two_pow_bitLen n n le_rfl)
  apply mulLoop_rep n g _ Z PG
  · rw [hz, zero_nsmul]; exact rep_zero
  · right; rw [hz, zero_add, one_nsmul]; exact hg
  · exact hs

theorem exists_rep_PG : ∃ g : secp.Point, Rep PG g :=
  ⟨_, rep_of_onCurve PG (by decide) (by decide)⟩

theorem mulLoopOk_order_pred :
    mulLoopOk (order - 1) modulo (mpz_sizeinbase2 (order - 1)) Z PG = true := by decide!

/-- The generator has order `n` in the curve group. -/
theorem order_nsmul_G [Fact (Nat.Prime modulo.toNat)] (g : secp.Point) (hg : Rep PG g) :
    order.toNat • g = 0 ∧ g ≠ 0 := by
  have hg0 : g ≠ 0 := by
    intro h; rw [h] at hg
    exact absurd hg.eq_Z (by decide)
  refine ⟨?_, hg0⟩
  have hcast : (((order - 1).toNat : Nat) : Int) = order - 1 := by decide
  have h1 : Rep (mul (order - 1)) ((order - 1).toNat • g) := by
    have := mul_rep (order - 1).toNat g hg (Or.inl (by rw [hcast]; exact mulLoopOk_order_pred))
    rwa [hcast] at this
  rw [mul_order_pred] at h1
  obtain ⟨_, h, rfl⟩ := hg.affine (by decide)
  have h2 : Rep (Gx, modulo - Gy) (-Point.some h) := by
    rw [Point.neg_some]
    refine rep_some _ (Gx, modulo - Gy) (by decide) rfl ?_
    rw [secp_negY]
    show ((modulo - Gy : Int) : ZMod modulo.toNat) = -((Gy : Int) : ZMod modulo.toNat)
    push_cast; rw [cast_modulo]; ring
  have h3 := h1.unique h2
  have h4 : order.toNat = (order - 1).toNat + 1 := by decide
  rw [h4, succ_nsmul, h3]; simp

theorem nsmul_G_ne_zero [Fact (Nat.Prime modulo.toNat)] (g : secp.Point) (hg : Rep PG g)
    (m : Nat) (h0 : 0 < m) (h1 : m < order.toNat) : m • g ≠ 0 := by
  haveI : Fact (Nat.Prime order.toNat) := ⟨order_prime⟩
  obtain ⟨hn, hne⟩ := order_nsmul_G g hg
  have hord : addOrderOf g = order.toNat := addOrderOf_eq_prime hn hne
  intro h
  have := Nat.le_of_dvd h0 (hord ▸ addOrderOf_dvd_of_nsmul_eq_zero h)
  omega

/-- For `0 ≤ k < n` the point `mul k` denotes the multiple `k • g` of the generator. -/
theorem mul_rep_of_lt_order [Fact (Nat.Prime modulo.toNat)] (g : secp.Point) (hg : Rep PG g)
    (k : Int) (h0 : 0 ≤ k) (h1 : k < order) : Rep (mul k) (k.toNat • g) := by
  obtain ⟨n, rfl⟩ := Int.eq_ofNat_of_zero_le h0
  have hn : n < order.toNat := by
    have : (n : Int) < (order.toNat : Int) := by
      rw [Int.toNat_of_nonneg (by decide)]; exact h1
    exact_mod_cast this
  exact mul_rep n g hg (Or.inr fun m hm hmn => nsmul_G_ne_zero g hg m hm (by omega))

/-! ## The range and the baby-step count -/

theorem range_eq (puzzle : Int) (h : 1 ≤ puzzle) :
    end_range puzzle - start_range puzzle = 2 ^ (puzzle - 1).toNat - 1 := by
  have hk : puzzle.toNat = (puzzle - 1).toNat + 1 := by omega
  unfold end_range start_range
  rw [hk, pow_succ]; ring

theorem baby_steps_eq (puzzle : Int) (h : 1 ≤ puzzle) :
    baby_steps puzzle = 4 * (Nat.sqrt (2 ^ (puzzle - 1).toNat - 1) : Nat) := by
  unfold baby_steps
  rw [range_eq puzzle h]
  have : ((2 : Int) ^ (puzzle - 1).toNat - 1).toNat = 2 ^ (puzzle - 1).toNat - 1 := by
    have h1 : (1 : Nat) ≤ 2 ^ (puzzle - 1).toNat := Nat.one_le_two_pow
    have : ((2 : Int) ^ (puzzle - 1).toNat - 1) = ((2 ^ (puzzle - 1).toNat - 1 : Nat) : Int) := by
      rw [Nat.cast_sub h1]; simp
    rw [this, Int.toNat_natCast]
  rw [this, Int.ofNat_eq_coe, mul_comm]

theorem sixteen_sq_sqrt_ge (r : Nat) : r ≤ (4 * Nat.sqrt r) * (4 * Nat.sqrt r) := by
  have h := Nat.lt_succ_sqrt r
  rcases Nat.eq_zero_or_pos (Nat.sqrt r) with h0 | h0
  · rw [h0] at h; simp at h; omega
  · simp only [Nat.succ_eq_add_one] at h
    nlinarith

theorem sqrt_two_pow_29 : Nat.sqrt (2 ^ 29 - 1) = 23170 := by
  symm; rw [Nat.eq_sqrt]; norm_num

/-- The loop of the search ends within `fuel` iterations when `fuel * m` covers what is left
of the range. -/
theorem giant_loop_bound (XXH64 : List Char → Nat) (baby_table : BabyTable)
    (puzzle_pubkey : List Char) (start range m : Int) (m_P : Point) (fuel : Nat) :
    ∀ (local_S : Point) (local_step : Int), range - local_step ≤ fuel * m →
      giant_loop XXH64 baby_table puzzle_pubkey start range m m_P (fuel + 1) local_S local_step
        ≠ none := by
  induction fuel with
  | zero =>
    intro S step h
    unfold giant_loop
    have : ¬ step < range := by simp at h; omega
    simp [this]
  | succ fuel ih =>
    intro S step hle
    unfold giant_loop
    split_ifs with h
    · have hnext : giant_loop XXH64 baby_table puzzle_pubkey start range m m_P (fuel + 1)
          (point_subtraction S m_P) (step + m) ≠ none := by
        apply ih
        push_cast at hle
        linarith
      simp only
      split
      · split_ifs
        · simp
        · exact hnext
      · exact hnext
    · simp

theorem four_le_baby_steps (puzzle : Int) (h : 2 ≤ puzzle) : 4 ≤ baby_steps puzzle := by
  rw [baby_steps_eq puzzle (by omega)]
  have hk : (puzzle - 1).toNat = (puzzle - 2).toNat + 1 := by omega
  have hpos : 0 < 2 ^ (puzzle - 1).toNat - 1 := by
    rw [hk, pow_succ]
    have : 1 ≤ 2 ^ (puzzle - 2).toNat := Nat.one_le_two_pow
    omega
  have := Nat.sqrt_pos.2 hpos
  omega

/-! ## The `int` field of a record -/

theorem to_int32_of_range (v : Int) (h0 : -2 ^ 31 ≤ v) (h1 : v < 2 ^ 31) : to_int32 v = v := by
  unfold to_int32; omega

theorem int_of_bytes_int_bytes (v : Int) (h0 : -2 ^ 31 ≤ v) (h1 : v < 2 ^ 31) :
    int_of_bytes (int_bytes v) = v := by
  unfold int_of_bytes int_bytes
  simp only [List.getD_cons_zero, List.getD_cons_succ]
  have hnn : 0 ≤ v % 2 ^ 32 := Int.emod_nonneg _ (by norm_num)
  have hlt : v % 2 ^ 32 < 2 ^ 32 := Int.emod_lt_of_pos _ (by norm_num)
  have hu : (((v % 2 ^ 32).toNat : Nat) : Int) = v % 2 ^ 32 := Int.toNat_of_nonneg hnn
  have hsum : (v % 2 ^ 32).toNat % 256 + 256 * ((v % 2 ^ 32).toNat / 256 % 256)
      + 65536 * ((v % 2 ^ 32).toNat / 65536 % 256)
      + 16777216 * ((v % 2 ^ 32).toNat / 16777216 % 256) = (v % 2 ^ 32).toNat := by
    have : (v % 2 ^ 32).toNat < 2 ^ 32 := by omega
    omega
  rw [hsum, Int.ofNat_eq_coe, hu]
  unfold to_int32; omega

theorem sqrt_two_pow_58 : Nat.sqrt (2 ^ 58 - 1) = 2 ^ 29 - 1 := by
  symm; rw [Nat.eq_sqrt]; norm_num

theorem sqrt_two_pow_59 : Nat.sqrt (2 ^ 59 - 1) = 759250124 := by
  symm; rw [Nat.eq_sqrt]; norm_num

theorem baby_steps_60 : baby_steps 60 = 3037000496 := by
  rw [baby_steps_eq 60 (by norm_num)]
  have : ((60 : Int) - 1).toNat = 59 := by decide
  rw [this, sqrt_two_pow_59]; norm_num

theorem baby_steps_le_59 (puzzle : Int) (h1 : 1 ≤ puzzle) (h2 : puzzle ≤ 59) :
    baby_steps puzzle ≤ 2 ^ 31 - 4 := by
  rw [baby_steps_eq puzzle h1]
  have hle : (puzzle - 1).toNat ≤ 58 := by omega
  have hpow : 2 ^ (puzzle - 1).toNat - 1 ≤ 2 ^ 58 - 1 :=
    Nat.sub_le_sub_right (Nat.pow_le_pow_right (by norm_num) hle) 1
  have := Nat.sqrt_le_sqrt hpow
  rw [sqrt_two_pow_58] at this
  have h3 : ((Nat.sqrt (2 ^ (puzzle - 1).toNat - 1) : Nat) : Int) ≤ ((2 ^ 29 - 1 : Nat) : Int) :=
    Int.ofNat_le.2 this
  norm_num at h3 ⊢
  omega

/-! ## Fixed-width hexadecimal -/

theorem hexFixed_length (w : Nat) : ∀ n, (hexFixed w n).length = w := by
  induction w with
  | zero => intro n; rfl
  | succ w ih => intro n; simp [hexFixed, ih]

theorem hexFixed_zero (w : Nat) : hexFixed w 0 = List.replicate w '0' := by
  induction w with
  | zero => rfl
  | succ w ih =>
    rw [hexFixed, Nat.zero_div, ih, List.replicate_succ']
    rfl

theorem hexFixed_add (a b : Nat) : ∀ n,
    hexFixed (a + b) n = hexFixed a (n / 16 ^ b) ++ hexFixed b n := by
  induction b with
  | zero => intro n; simp [hexFixed]
  | succ b ih =>
    intro n
    rw [← add_assoc, hexFixed, ih, hexFixed, List.append_assoc, Nat.div_div_eq_div_mul,
      pow_succ, mul_comm 16]

theorem hexFixed_lower (w : Nat) : ∀ n, ∀ c ∈ hexFixed w n, isLowerHex c = true := by
  have hd : ∀ d, d < 16 → isLowerHex (hexChar d) = true := by decide
  induction w with
  | zero => intro n c hc; simp [hexFixed] at hc
  | succ w ih =>
    intro n c hc
    simp only [hexFixed, List.mem_append, List.mem_singleton] at hc
    rcases hc with hc | rfl
    · exact ih _ c hc
    · exact hd _ (Nat.mod_lt _ (by norm_num))

/-- The digits written by `hexLoop`, padded with zeros, are the fixed-width digits. -/
theorem hexLoop_fixed : ∀ (fuel n : Nat) (acc : List Char), n < 16 ^ (fuel + 1) →
    ∃ L : List Char, hexLoop (fuel + 1) n acc = L ++ acc ∧
      ∀ w, 1 ≤ w → n < 16 ^ w →
        L.length ≤ w ∧ List.replicate (w - L.length) '0' ++ L = hexFixed w n := by
  intro fuel
  induction fuel with
  | zero =>
    intro n acc hn
    have hn : n < 16 := by simpa using hn
    refine ⟨[hexChar n], by simp [hexLoop, hn], ?_⟩
    intro w hw _
    obtain ⟨w, rfl⟩ : ∃ v, w = v + 1 := ⟨w - 1, by omega⟩
    refine ⟨by simp, ?_⟩
    rw [hexFixed, Nat.div_eq_of_lt hn, Nat.mod_eq_of_lt hn, hexFixed_zero]
    simp
  | succ fuel ih =>
    intro n acc hn
    by_cases h16 : n < 16
    · refine ⟨[hexChar n], by simp [hexLoop, h16], ?_⟩
      intro w hw _
      obtain ⟨w, rfl⟩ : ∃ v, w = v + 1 := ⟨w - 1, by omega⟩
      refine ⟨by simp, ?_⟩
      rw [hexFixed, Nat.div_eq_of_lt h16, Nat.mod_eq_of_lt h16, hexFixed_zero]
      simp
    · have hdiv : n / 16 < 16 ^ (fuel + 1) := by
        rw [Nat.div_lt_iff_lt_mul (by norm_num)]
        rw [pow_succ] at hn; exact hn
      obtain ⟨L, hL, hfix⟩ := ih (n / 16) (hexChar (n % 16) :: acc) hdiv
      refine ⟨L ++ [hexChar (n % 16)], by rw [hexLoop, if_neg h16, hL]; simp, ?_⟩
      intro w hw hnw
      obtain ⟨w, rfl⟩ : ∃ v, w = v + 1 := ⟨w - 1, by omega⟩
      have hw1 : 1 ≤ w := by
        rcases Nat.eq_zero_or_pos w with h0 | h0
        · subst h0; simp at hnw; omega
        · exact h0
      have hdw : n / 16 < 16 ^ w := by
        rw [Nat.div_lt_iff_lt_mul (by norm_num)]
        rw [pow_succ] at hnw; exact hnw
      obtain ⟨hlen, heq⟩ := hfix w hw1 hdw
      refine ⟨by simp; omega, ?_⟩
      rw [hexFixed, ← heq]
      simp only [List.length_append, List.length_singleton, List.append_assoc]
      congr 2
      omega

theorem fmt016lx_eq (h : Nat) (hh : h < 2 ^ 64) : fmt016lx h = hexFixed 16 h := by
  have hlt : h < 16 ^ (h + 1) :=
    lt_trans (Nat.lt_pow_self (by norm_num) h) (Nat.pow_lt_pow_right (by norm_num) (by omega))
  obtain ⟨L, hL, hfix⟩ := hexLoop_fixed h h [] hlt
  obtain ⟨_, heq⟩ := hfix 16 (by norm_num) (by norm_num at hh ⊢; exact hh)
  unfold fmt016lx
  simp only [hL, List.append_nil]
  exact heq

theorem hash_cpub_eq (XXH64 : List Char → Nat) (s : List Char) :
    hash_cpub XXH64 s = hexFixed 8 (XXH64 s % 2 ^ 64 / 2 ^ 32) := by
  unfold hash_cpub
  simp only
  rw [fmt016lx_eq _ (Nat.mod_lt _ (by norm_num)), hexFixed_add 8 8]
  have : (2 : Nat) ^ 32 = 16 ^ 8 := by norm_num
  rw [this, List.take_left' (hexFixed_length 8 _)]

/-! ## Outputs of `add` -/

theorem emod_eq_zero_of_cast (a : Int) (h : (a : ZMod modulo.toNat) = 0) : a % modulo = 0 := by
  rw [ZMod.intCast_zmod_eq_zero_iff_dvd, modulo_toNat_cast] at h
  exact Int.emod_eq_zero_of_dvd h

theorem cast_ne_zero_of_invertible (d : Int) (h : ∃ v : Int, (d * v) % modulo = 1) :
    (d : ZMod modulo.toNat) ≠ 0 := by
  haveI : Fact (Nat.Prime modulo.toNat) := ⟨modulo_prime⟩
  obtain ⟨v, hv⟩ := h
  intro h0
  have h1 : ((d * v : Int) : ZMod modulo.toNat) = 0 := by push_cast; rw [h0]; ring
  have := emod_eq_zero_of_cast _ h1
  omega

/-- The outputs of `add` on two points other than the sentinel, for a slope `lam` computed with
the inverse `inv` of the denominator. -/
theorem add_outputs (x1 y1 x2 num denom inv x y : Int)
    (hinv : (inv : ZMod modulo.toNat) = (denom : ZMod modulo.toNat)⁻¹)
    (hd : (denom : ZMod modulo.toNat) ≠ 0)
    (hx : x = if ((num * inv).tmod modulo * (num * inv).tmod modulo - x1 - x2).tmod modulo < 0
      then ((num * inv).tmod modulo * (num * inv).tmod modulo - x1 - x2).tmod modulo + modulo
      else ((num * inv).tmod modulo * (num * inv).tmod modulo - x1 - x2).tmod modulo)
    (hy : y = if ((num * inv).tmod modulo * (x1 - x) - y1).tmod modulo < 0
      then ((num * inv).tmod modulo * (x1 - x) - y1).tmod modulo + modulo
      else ((num * inv).tmod modulo * (x1 - x) - y1).tmod modulo) :
    ∃ lam : Int, (denom * lam - num) % modulo = 0 ∧
      0 ≤ x ∧ x < modulo ∧ 0 ≤ y ∧ y < modulo ∧
      (x - (lam * lam - x1 - x2)) % modulo = 0 ∧
      (y - (lam * (x1 - x) - y1)) % modulo = 0 := by
  haveI : Fact (Nat.Prime modulo.toNat) := ⟨modulo_prime⟩
  obtain ⟨hred, hxF, hyF⟩ := add_tail_spec x1 y1 x2 ((num * inv).tmod modulo) _ rfl x y hx hy
  refine ⟨(num * inv).tmod modulo, ?_, hred.1, hred.2.1, hred.2.2.1, hred.2.2.2, ?_, ?_⟩
  · apply emod_eq_zero_of_cast
    push_cast
    rw [cast_tmod]
    push_cast
    rw [hinv]
    field_simp
  · apply emod_eq_zero_of_cast
    push_cast
    rw [hxF]; ring
  · apply emod_eq_zero_of_cast
    push_cast
    rw [hyF, hxF]; ring

/-! ## Iterations of the search loop -/

/-- The loop of the search runs `j` iterations without a key when each of them passes the
loop condition and none of them verifies a candidate: it arrives at the running point
`giant_S m_P S j` with the counter advanced by `j * m`. -/
theorem giant_loop_reach (XXH64 : List Char → Nat) (baby_table : BabyTable)
    (puzzle_pubkey : List Char) (start range m : Int) (m_P : Point) :
    ∀ (j fuel : Nat) (S : Point) (local_step : Int),
      (∀ i : Nat, i < j → local_step + i * m < range) →
      (∀ i : Nat, i < j → ∀ b : Int,
        baby_table.find (hash_cpub XXH64 (point_to_cpub (giant_S m_P S i))) = some b →
        point_to_cpub (mul (start + (local_step + i * m) + b)) ≠ puzzle_pubkey) →
      giant_loop XXH64 baby_table puzzle_pubkey start range m m_P (fuel + j) S local_step
        = giant_loop XXH64 baby_table puzzle_pubkey start range m m_P fuel
            (giant_S m_P S j) (local_step + j * m) := by
  intro j
  induction j with
  | zero => intro fuel S ls _ _; simp [giant_S]
  | succ j ih =>
    intro fuel S ls hg hno
    have hnext : giant_loop XXH64 baby_table puzzle_pubkey start range m m_P (fuel + j)
          (point_subtraction S m_P) (ls + m)
        = giant_loop XXH64 baby_table puzzle_pubkey start range m m_P fuel
            (giant_S m_P S (j + 1)) (ls + (j + 1 : Nat) * m) := by
      have e := ih fuel (point_subtraction S m_P) (ls + m)
        (fun i hi => by have := hg (i + 1) (by omega); push_cast at this; linarith)
        (fun i hi b hb => by
          have := hno (i + 1) (by omega) b hb
          push_cast at this
          rw [show start + (ls + m + i * m) + b = start + (ls + (i + 1) * m) + b by ring]
          exact this)
      rw [e]
      congr 1
      push_cast; ring
    have h0 := hg 0 (by omega)
    simp only [Nat.cast_zero, zero_mul, add_zero] at h0
    rw [← Nat.add_assoc, giant_loop, if_pos h0]
    simp only
    cases hf : baby_table.find (hash_cpub XXH64 (point_to_cpub S)) with
    | none => exact hnext
    | some b =>
      have := hno 0 (by omega) b hf
      simp only [Nat.cast_zero, zero_mul, add_zero] at this
      simp only [if_neg this]
      exact hnext

/-- The iteration reached after `j` giant steps publishes the key when its probe succeeds. -/
theorem giant_loop_probe (XXH64 : List Char → Nat) (baby_table : BabyTable)
    (puzzle_pubkey : List Char) (start range m : Int) (m_P : Point)
    (j fuel : Nat) (S : Point) (b : Int) (hfuel : j < fuel)
    (hg : (j : Int) * m < range) (hm : 0 ≤ m)
    (hno : ∀ i : Nat, i < j → ∀ b : Int,
        baby_table.find (hash_cpub XXH64 (point_to_cpub (giant_S m_P S i))) = some b →
        point_to_cpub (mul (start + i * m + b)) ≠ puzzle_pubkey)
    (hb : baby_table.find (hash_cpub XXH64 (point_to_cpub (giant_S m_P S j))) = some b)
    (hk : point_to_cpub (mul (start + j * m + b)) = puzzle_pubkey) :
    giant_loop XXH64 baby_table puzzle_pubkey start range m m_P fuel S 0
      = some (some (start + j * m + b)) := by
  obtain ⟨f, rfl⟩ : ∃ f, fuel = (f + 1) + j := ⟨fuel - j - 1, by omega⟩
  rw [giant_loop_reach XXH64 baby_table puzzle_pubkey start range m m_P j (f + 1) S 0
    (fun i hi => by
      have : (i : Int) * m ≤ j * m :=
        mul_le_mul_of_nonneg_right (by exact_mod_cast hi.le) hm
      linarith)
    (fun i hi b hb => by simpa using hno i hi b hb)]
  rw [giant_loop, zero_add, if_pos hg]
  simp only [hb, hk, if_true]

/-- Without any table entry the loop runs exactly `c` iterations, `c` the least count with
`range ≤ c * m`: a budget of `c` is exhausted, a budget of `c + 1` sees the loop end. -/
theorem giant_loop_count (XXH64 : List Char → Nat) (puzzle_pubkey : List Char)
    (start range m : Int) (m_P : Point) (c : Nat) (S : Point)
    (hm : 0 ≤ m) (hlo : ((c : Int) - 1) * m < range) (hhi : range ≤ c * m) :
    giant_loop XXH64 [] puzzle_pubkey start range m m_P c S 0 = none ∧
    giant_loop XXH64 [] puzzle_pubkey start range m m_P (c + 1) S 0 = some none := by
  have hg : ∀ i : Nat, i < c → (0 : Int) + i * m < range := by
    intro i hi
    have : (i : Int) * m ≤ ((c : Int) - 1) * m :=
      mul_le_mul_of_nonneg_right (by have : (i : Int) + 1 ≤ c := by exact_mod_cast hi
                                     linarith) hm
    linarith
  have hno : ∀ i : Nat, i < c → ∀ b : Int,
      BabyTable.find [] (hash_cpub XXH64 (point_to_cpub (giant_S m_P S i))) = some b →
      point_to_cpub (mul (start + (0 + i * m) + b)) ≠ puzzle_pubkey := by
    intro i _ b hb
    simp [BabyTable.find] at hb
  constructor
  · have := giant_loop_reach XXH64 [] puzzle_pubkey start range m m_P c 0 S 0 hg hno
    rw [Nat.zero_add] at this
    rw [this]; rfl
  · have := giant_loop_reach XXH64 [] puzzle_pubkey start range m m_P c 1 S 0 hg hno
    rw [Nat.add_comm 1 c] at this
    rw [this, giant_loop, if_neg (by linarith)]

/-! ## The record loop of the loader -/

theorem records_of_short (B : List Byte) (h : B.length < 12) : records_of B = [] := by
  simp [records_of, Nat.div_eq_of_lt h]

theorem records_of_cons (B : List Byte) (h : 12 ≤ B.length) :
    records_of B = record_at B 0 :: records_of (B.drop 12) := by
  unfold records_of
  have hlen : B.length / 12 = (B.drop 12).length / 12 + 1 := by
    rw [List.length_drop]; omega
  rw [hlen, List.range_succ_eq_map, List.map_cons, List.map_map]
  congr 1
  apply List.map_congr_left
  intro i _
  simp only [Function.comp, record_at, List.drop_drop]
  have : 12 * (i + 1) = 12 + 12 * i := by ring
  rw [this]

theorem load_records_eq : ∀ (fuel : Nat) (bs : List Byte) (t : BabyTable),
    bs.length / 12 ≤ fuel → load_records fuel bs t = insert_all t (records_of bs) := by
  intro fuel
  induction fuel with
  | zero =>
    intro bs t h
    have : bs.length < 12 := by omega
    simp [load_records, records_of_short bs this, insert_all]
  | succ fuel ih =>
    intro bs t h
    unfold load_records
    by_cases h12 : bs.length < 12
    · rw [records_of_short bs h12]
      have : bs.length < 8 ∨ (bs.drop 8).length < 4 := by
        rw [List.length_drop]; omega
      rcases this with h8 | h4
      · simp [h8, insert_all]
      · by_cases h8 : bs.length < 8
        · simp [h8, insert_all]
        · rw [if_neg h8, if_pos h4]; simp [insert_all]
    · have h8 : ¬ bs.length < 8 := by omega
      have h4 : ¬ (bs.drop 8).length < 4 := by rw [List.length_drop]; omega
      rw [if_neg h8, if_neg h4, records_of_cons bs (by omega)]
      rw [ih _ _ (by rw [List.length_drop]; omega)]
      simp [insert_all, record_at]

theorem lookup_filter_ne {β : Type} (k key : List Char) (h : key ≠ k) :
    ∀ t : List (List Char × β),
      List.lookup key (t.filter (fun e => e.1 ≠ k)) = List.lookup key t := by
  intro t
  induction t with
  | nil => rfl
  | cons e t ih =>
    obtain ⟨a, b⟩ := e
    by_cases ha : a = k
    · subst ha
      have hb : (key == a) = false := by simpa using h
      rw [List.filter_cons_of_neg (by simp), List.lookup_cons, hb, ih]
    · rw [List.filter_cons_of_pos (by simpa using ha), List.lookup_cons, List.lookup_cons, ih]

theorem find_set (t : BabyTable) (k : List Char) (v : Int) (key : List Char) :
    (t.set k v).find key = if key = k then some v else t.find key := by
  unfold BabyTable.set BabyTable.find
  by_cases h : key = k
  · subst h; simp [List.lookup]
  · have hb : (key == k) = false := by simpa using h
    rw [if_neg h, List.lookup_cons, hb]
    exact lookup_filter_ne k key h t

/-- The table keeps, for each key, the index of the last record inserted with it. -/
theorem find_insert_all (es : List (List Char × Int)) : ∀ (t : BabyTable) (key : List Char),
    (insert_all t es).find key = (es.reverse.lookup key).or (t.find key) := by
  induction es with
  | nil => intro t key; simp [insert_all]
  | cons e es ih =>
    intro t key
    have : insert_all t (e :: es) = insert_all (t.set e.1 e.2) es := rfl
    rw [this, ih, find_set]
    rw [List.reverse_cons, List.lookup_append]
    cases h : List.lookup key es.reverse with
    | some v => simp
    | none =>
      obtain ⟨a, b⟩ := e
      by_cases hk : key = a
      · subst hk; simp [List.lookup]
      · have hb : (key == a) = false := by simpa using hk
        simp [List.lookup, hb, hk]

theorem records_of_append_fragment : ∀ (n : Nat) (B frag : List Byte), B.length = 12 * n →
    frag.length < 12 → records_of (B ++ frag) = records_of B := by
  intro n
  induction n with
  | zero =>
    intro B frag hB hf
    have : B = [] := List.length_eq_zero.1 (by omega)
    subst this
    simp [records_of_short frag hf, records_of_short [] (by simp)]
  | succ n ih =>
    intro B frag hB hf
    have h12 : 12 ≤ B.length := by omega
    rw [records_of_cons (B ++ frag) (by rw [List.length_append]; omega),
      records_of_cons B h12, List.drop_append_of_le_length h12,
      ih (B.drop 12) frag (by rw [List.length_drop]; omega) hf]
    congr 1
    simp only [record_at, Nat.mul_zero, List.drop_zero]
    rw [List.take_append_of_le_length (by omega),
      List.drop_append_of_le_length (by omega),
      List.take_append_of_le_length (by rw [List.length_drop]; omega)]

theorem load_single_part (raw : List (Nat × List Byte)) (B : List Byte) :
    load_baby_table ⟨raw, [(1, B)]⟩ = insert_all [] (records_of B) := by
  simp [load_baby_table, load_parts, List.lookup]
  exact load_records_eq _ _ _ (Nat.div_le_self _ _)

/-! ## Records of well-formed entries -/

theorem int_bytes_length (v : Int) : (int_bytes v).length = 4 := by simp [int_bytes]

theorem record_bytes_length (e : List Char × Int) : (record_bytes e).length = 12 := by
  simp [record_bytes, int_bytes_length]

theorem xdigit_byte : ∀ c : Char, isxdigit c = true →
    c.toNat % 256 ≠ 0 ∧ Char.ofNat (c.toNat % 256) = c := by
  intro c h
  have hr : 48 ≤ c.toNat ∧ c.toNat ≤ 102 := by
    simp only [isxdigit, hexval] at h
    split_ifs at h <;> first | omega | simp at h
  have hm : c.toNat % 256 = c.toNat := Nat.mod_eq_of_lt (by omega)
  rw [hm]
  exact ⟨by omega, Char.ofNat_toNat c⟩

theorem key_of_bytes_map (k : List Char) (h : ∀ c ∈ k, isxdigit c = true) :
    key_of_bytes (k.map (fun (c : Char) => c.toNat % 256)) = k := by
  unfold key_of_bytes
  have h1 : (k.map (fun (c : Char) => c.toNat % 256)).takeWhile (fun b => b ≠ 0)
      = k.map (fun (c : Char) => c.toNat % 256) := by
    rw [List.takeWhile_eq_self_iff]
    intro b hb
    obtain ⟨c, hc, rfl⟩ := List.mem_map.1 hb
    simpa using (xdigit_byte c (h c hc)).1
  rw [h1, List.map_map]
  conv_rhs => rw [← List.map_id k]
  apply List.map_congr_left
  intro c hc
  exact (xdigit_byte c (h c hc)).2

theorem record_at_record_bytes (e : List Char × Int) (he : WFEntry e) (rest : List Byte) :
    record_at (record_bytes e ++ rest) 0 = e := by
  obtain ⟨hlen, hx, h0, h1⟩ := he
  have hk : ((e.1.map (fun (c : Char) => c.toNat % 256)) ++ List.replicate 8 0).take 8
      = e.1.map (fun (c : Char) => c.toNat % 256) :=
    List.take_left' (by simp [hlen])
  have hlen8 : (e.1.map (fun (c : Char) => c.toNat % 256)).length = 8 := by simp [hlen]
  simp only [record_at, Nat.mul_zero, List.drop_zero, record_bytes, hk, List.append_assoc]
  rw [List.take_left' hlen8, List.drop_left' hlen8, List.take_left' (int_bytes_length _),
    key_of_bytes_map _ hx, int_of_bytes_int_bytes _ h0 h1]

theorem records_of_flatMap : ∀ es : List (List Char × Int), (∀ e ∈ es, WFEntry e) →
    records_of (es.flatMap record_bytes) = es := by
  intro es
  induction es with
  | nil => intro _; simp [records_of]
  | cons e es ih =>
    intro h
    rw [List.flatMap_cons, records_of_cons _ (by simp [record_bytes_length]),
      record_at_record_bytes e (h e (List.mem_cons_self _ _)),
      List.drop_left' (record_bytes_length e),
      ih (fun x hx => h x (List.mem_cons_of_mem _ hx))]

theorem load_records_flatMap (es : List (List Char × Int)) (h : ∀ e ∈ es, WFEntry e)
    (t : BabyTable) :
    load_records (es.flatMap record_bytes).length (es.flatMap record_bytes) t
      = insert_all t es := by
  rw [load_records_eq _ _ _ (Nat.div_le_self _ _), records_of_flatMap es h]

theorem insert_all_append (t : BabyTable) (a b : List (List Char × Int)) :
    insert_all t (a ++ b) = insert_all (insert_all t a) b := by
  simp [insert_all, List.foldl_append]


/-! ## Parts written by `save_baby_table` and read by `load_baby_table` -/

theorem gzOf_keys_le : ∀ (rcs : List BabyTable), ∀ e ∈ gzOf rcs, 1 ≤ e.1 ∧ e.1 ≤ rcs.length := by
  intro rcs
  induction rcs with
  | nil => intro e he; simp [gzOf] at he
  | cons c rcs ih =>
    intro e he
    simp only [gzOf, List.mem_cons] at he
    rcases he with rfl | he
    · simp
    · have := ih e he
      simp only [List.length_cons]; omega

theorem gzOf_length (rcs : List BabyTable) : (gzOf rcs).length = rcs.length := by
  induction rcs with
  | nil => rfl
  | cons c rcs ih => simp [gzOf, ih]

theorem lookup_eq_none_of_forall_ne {β : Type} (k : Nat) :
    ∀ l : List (Nat × β), (∀ e ∈ l, e.1 ≠ k) → List.lookup k l = none := by
  intro l
  induction l with
  | nil => intro _; rfl
  | cons e l ih =>
    intro h
    obtain ⟨a, b⟩ := e
    have ha : a ≠ k := h (a, b) (List.mem_cons_self _ _)
    have hb : (k == a) = false := by simpa using (Ne.symm ha)
    rw [List.lookup_cons, hb]
    exact ih (fun x hx => h x (List.mem_cons_of_mem _ hx))

theorem lookup_gzOf_gt (rcs : List BabyTable) (k : Nat) (h : rcs.length < k) :
    List.lookup k (gzOf rcs) = none :=
  lookup_eq_none_of_forall_ne k _ (fun e he => by have := gzOf_keys_le rcs e he; omega)

theorem lookup_gzOf : ∀ (rcs : List BabyTable) (j : Nat) (hj : j < rcs.length),
    List.lookup (j + 1) (gzOf (rcs.drop (rcs.length - 1 - j))) =
      some ((rcs.get ⟨rcs.length - 1 - j, by omega⟩).flatMap record_bytes) := by
  intro rcs j hj
  have hd : rcs.drop (rcs.length - 1 - j)
      = rcs.get ⟨rcs.length - 1 - j, by omega⟩ :: rcs.drop (rcs.length - 1 - j + 1) :=
    List.drop_eq_getElem_cons (by omega)
  rw [hd, gzOf, List.length_drop]
  have : rcs.length - (rcs.length - 1 - j + 1) + 1 = j + 1 := by omega
  rw [this]
  simp [List.lookup]

theorem lookup_gzOf_drop : ∀ (rcs : List BabyTable) (n k : Nat), k ≤ rcs.length - n →
    List.lookup k (gzOf rcs) = List.lookup k (gzOf (rcs.drop n)) := by
  intro rcs
  induction rcs with
  | nil => intro n k _; simp
  | cons c rcs ih =>
    intro n k hk
    cases n with
    | zero => rfl
    | succ n =>
      simp only [List.length_cons, List.drop_succ_cons] at hk ⊢
      have hne : (k == rcs.length + 1) = false := by
        have : k ≠ rcs.length + 1 := by omega
        simpa using this
      rw [gzOf, List.lookup_cons, hne]
      exact ih n k (by omega)

/-- Reading the parts `k, k+1, ..` of a disk that holds the chunks `rcs`. -/
theorem load_parts_gzOf (raw : List (Nat × List Byte)) (rcs : List BabyTable)
    (hwf : ∀ c ∈ rcs, ∀ e ∈ c, WFEntry e) :
    ∀ (j fuel k : Nat) (t : BabyTable), k + j = rcs.length + 1 → 2 ≤ k ∨ (1 ≤ k ∧ 1 ≤ j) →
      j < fuel →
      load_parts ⟨raw, gzOf rcs⟩ fuel k t = insert_all t ((rcs.take j).reverse.flatten) := by
  intro j
  induction j with
  | zero =>
    intro fuel k t hk h1 hf
    obtain ⟨fuel, rfl⟩ : ∃ f, fuel = f + 1 := ⟨fuel - 1, by omega⟩
    have hk2 : k ≠ 1 := by omega
    simp [load_parts, lookup_gzOf_gt rcs k (by omega), hk2, insert_all]
  | succ j ih =>
    intro fuel k t hk h1 hf
    obtain ⟨fuel, rfl⟩ : ∃ f, fuel = f + 1 := ⟨fuel - 1, by omega⟩
    have hjl : j < rcs.length := by omega
    have hidx : rcs.length - 1 - (k - 1) = j := by omega
    have hlook : List.lookup k (gzOf rcs)
        = some ((rcs.get ⟨j, hjl⟩).flatMap record_bytes) := by
      rw [lookup_gzOf_drop rcs j k (by omega)]
      have := lookup_gzOf rcs (k - 1) (by omega)
      simp only [hidx] at this
      have e : k - 1 + 1 = k := by omega
      rw [e] at this
      exact this
    unfold load_parts
    simp only [hlook]
    rw [load_records_flatMap _ (hwf _ (List.get_mem _ _ _)),
      ih fuel (k + 1) _ (by omega) (Or.inl (by omega)) (by omega)]
    rw [← insert_all_append]
    congr 1
    have ht : rcs.take (j + 1) = rcs.take j ++ [rcs.get ⟨j, hjl⟩] := by
      rw [List.take_succ]
      simp [List.getElem?_eq_getElem hjl]
    rw [ht, List.reverse_append]
    simp

theorem load_baby_table_gzOf (raw : List (Nat × List Byte)) (rcs : List BabyTable)
    (hwf : ∀ c ∈ rcs, ∀ e ∈ c, WFEntry e) :
    load_baby_table ⟨raw, gzOf rcs⟩ = insert_all [] rcs.reverse.flatten := by
  unfold load_baby_table
  simp only [gzOf_length]
  rcases Nat.eq_zero_or_pos rcs.length with h0 | h0
  · have : rcs = [] := List.length_eq_zero.1 h0
    subst this
    simp [load_parts, gzOf, insert_all]
  · have := load_parts_gzOf raw rcs hwf rcs.length (rcs.length + 1) 1 []
      (by omega) (Or.inr ⟨le_refl _, h0⟩) (by omega)
    rw [this, List.take_length]


theorem filter_gzOf (rcs : List BabyTable) :
    (gzOf rcs).filter (fun e => e.1 ≠ rcs.length + 1) = gzOf rcs := by
  rw [List.filter_eq_self]
  intro e he
  have := gzOf_keys_le rcs e he
  simp only [ne_eq, decide_not, Bool.not_eq_true', decide_eq_false_iff_not]
  omega

/-- A stream that has handed over all its bytes before `pigz` runs leaves the chunk in full. -/
theorem save_baby_table_part_gzOf (sync : Nat → Nat) (hsync : ∀ n, sync n = n)
    (cp : BabyTable) (rcs : List BabyTable) :
    save_baby_table_part sync cp (rcs.length + 1) ⟨[], gzOf rcs⟩ = ⟨[], gzOf (cp :: rcs)⟩ := by
  simp only [save_baby_table_part, hsync, List.take_length, Disk.pigz, List.lookup,
    beq_self_eq_true, List.filter_nil,
    List.filter_cons, ne_eq, not_true_eq_false, decide_False, Bool.false_eq_true, if_false,
    gzOf]
  rw [show (List.filter (fun e => decide (¬e.1 = rcs.length + 1)) (gzOf rcs)) = gzOf rcs from
    filter_gzOf rcs]

theorem insert_of_not_mem (cp : BabyTable) (e : List Char × Int)
    (h : e.1 ∉ cp.map Prod.fst) : cp.insert e = cp ++ [e] := by
  unfold BabyTable.insert BabyTable.find
  have : List.lookup e.1 cp = none := by
    rw [List.lookup_eq_none_iff]
    intro p hp
    have hne : p.1 ≠ e.1 := fun heq => h (heq ▸ List.mem_map_of_mem Prod.fst hp)
    simpa using (Ne.symm hne)
  simp [this]

theorem save_loop_spec (sync : Nat → Nat) (hsync : ∀ n, sync n = n) :
    ∀ (rest : BabyTable) (current_size : Nat) (cp : BabyTable)
    (rcs : List BabyTable), ((cp ++ rest).map Prod.fst).Nodup →
    ∃ rcs' : List BabyTable,
      save_loop sync rest current_size (rcs.length + 1) cp ⟨[], gzOf rcs⟩ = ⟨[], gzOf rcs'⟩ ∧
      rcs'.reverse.flatten = rcs.reverse.flatten ++ (cp ++ rest) := by
  intro rest
  induction rest with
  | nil =>
    intro cs cp rcs _
    unfold save_loop
    by_cases hcp : cp = []
    · subst hcp; exact ⟨rcs, by simp, by simp⟩
    · exact ⟨cp :: rcs, by simp [hcp, save_baby_table_part_gzOf sync hsync], by simp⟩
  | cons e rest ih =>
    intro cs cp rcs hnd
    unfold save_loop
    simp only
    have hnotin : e.1 ∉ cp.map Prod.fst := by
      rw [List.map_append, List.map_cons] at hnd
      have := (List.nodup_append.1 hnd).2.2
      intro hmem
      exact this hmem (List.mem_cons_self _ _)
    split_ifs with hover
    · rw [save_baby_table_part_gzOf sync hsync]
      have hins : BabyTable.insert [] e = [e] := insert_of_not_mem [] e (by simp)
      rw [hins]
      have hnd' : (([e] ++ rest).map Prod.fst).Nodup := by
        rw [List.map_append] at hnd
        exact (List.nodup_append.1 hnd).2.1
      obtain ⟨rcs', h1, h2⟩ := ih (0 + (e.1.length + 4)) [e] (cp :: rcs) hnd'
      refine ⟨rcs', ?_, ?_⟩
      · simpa using h1
      · rw [h2]; simp
    · rw [insert_of_not_mem cp e hnotin]
      have hnd' : (((cp ++ [e]) ++ rest).map Prod.fst).Nodup := by
        simpa using hnd
      obtain ⟨rcs', h1, h2⟩ := ih (cs + (e.1.length + 4)) (cp ++ [e]) rcs hnd'
      exact ⟨rcs', h1, by rw [h2]; simp⟩

theorem set_of_not_mem (t : BabyTable) (k : List Char) (v : Int)
    (h : k ∉ t.map Prod.fst) : t.set k v = (k, v) :: t := by
  unfold BabyTable.set
  congr 1
  rw [List.filter_eq_self]
  intro e he
  have : e.1 ≠ k := fun heq => h (heq ▸ List.mem_map_of_mem Prod.fst he)
  simpa using this

theorem insert_all_nodup : ∀ (es : List (List Char × Int)) (t : BabyTable),
    ((t ++ es).map Prod.fst).Nodup → insert_all t es = es.reverse ++ t := by
  intro es
  induction es with
  | nil => intro t _; simp [insert_all]
  | cons e es ih =>
    intro t hnd
    have hnotin : e.1 ∉ t.map Prod.fst := by
      rw [List.map_append, List.map_cons] at hnd
      have := (List.nodup_append.1 hnd).2.2
      intro hmem
      exact this hmem (List.mem_cons_self _ _)
    have hstep : insert_all t (e :: es) = insert_all (t.set e.1 e.2) es := rfl
    rw [hstep, set_of_not_mem t e.1 e.2 hnotin]
    have hnd' : ((((e.1, e.2) :: t) ++ es).map Prod.fst).Nodup := by
      have hp : List.Perm (((e.1, e.2) :: t) ++ es) (t ++ e :: es) := by
        simpa using (List.perm_middle : List.Perm (t ++ e :: es) (e :: (t ++ es))).symm
      exact (hp.map Prod.fst).nodup_iff.2 hnd
    rw [ih _ hnd']
    simp

/-- Were the stream flushed before `pigz` runs, a table with distinct fingerprints would be
read back in full. -/
theorem load_save_eq (sync : Nat → Nat) (hsync : ∀ n, sync n = n) (T : BabyTable)
    (hnd : (T.map Prod.fst).Nodup) (hwf : ∀ e ∈ T, WFEntry e) :
    load_baby_table (save_baby_table sync T Disk.empty) = T.reverse := by
  obtain ⟨rcs, h1, h2⟩ := save_loop_spec sync hsync T 0 [] [] (by simpa using hnd)
  have hd : save_baby_table sync T Disk.empty = ⟨[], gzOf rcs⟩ := by
    simpa [save_baby_table, Disk.empty, gzOf] using h1
  have h2 : rcs.reverse.flatten = T := by simpa using h2
  have hwf' : ∀ c ∈ rcs, ∀ e ∈ c, WFEntry e := by
    intro c hc e he
    apply hwf
    rw [← h2, List.mem_flatten]
    exact ⟨c, List.mem_reverse.2 hc, he⟩
  rw [hd, load_baby_table_gzOf [] rcs hwf', h2, insert_all_nodup T [] (by simpa using hnd)]
  simp

/-! ## The builder -/

theorem sum_filter_le {β : Type} (f : β → Nat) (p : β → Bool) :
    ∀ l : List β, ((l.filter p).map f).sum ≤ (l.map f).sum := by
  intro l
  induction l with
  | nil => simp
  | cons a l ih =>
    by_cases h : p a = true
    · rw [List.filter_cons_of_pos h]; simp only [List.map_cons, List.sum_cons]; omega
    · rw [List.filter_cons_of_neg h]; simp only [List.map_cons, List.sum_cons]; omega

theorem lookup_add_filter_le (n : Nat) : ∀ l : List (Nat × List Byte),
    ((l.lookup n).getD []).length + ((l.filter (fun e => e.1 ≠ n)).map (fun e => e.2.length)).sum
      ≤ (l.map (fun e => e.2.length)).sum := by
  intro l
  induction l with
  | nil => simp
  | cons e l ih =>
    obtain ⟨k, c⟩ := e
    by_cases hk : k = n
    · subst hk
      have := sum_filter_le (fun e : Nat × List Byte => e.2.length) (fun e => e.1 ≠ k) l
      simp only [List.lookup, beq_self_eq_true, Option.getD_some, ne_eq, not_true_eq_false,
        decide_False, Bool.false_eq_true, not_false_eq_true, List.filter_cons_of_neg,
        List.map_cons, List.sum_cons] at this ⊢
      omega
    · have hb : (n == k) = false := by simpa using (Ne.symm hk)
      rw [List.lookup_cons, hb, List.filter_cons_of_pos (by simpa using hk)]
      simp only [List.map_cons, List.sum_cons]
      omega

theorem bytes_append_le (d : Disk) (n : Nat) (bs : List Byte) :
    (d.append n bs).bytes ≤ d.bytes + bs.length := by
  have := lookup_add_filter_le n d.raw
  simp only [Disk.bytes, Disk.append, List.map_cons, List.sum_cons, List.length_append]
  omega

theorem bytes_pigz_le (d : Disk) (n : Nat) : (d.pigz n).bytes ≤ d.bytes := by
  unfold Disk.pigz
  cases h : d.raw.lookup n with
  | none => simp
  | some bs =>
    have h1 := lookup_add_filter_le n d.raw
    have h2 := sum_filter_le (fun e : Nat × List Byte => e.2.length) (fun e => e.1 ≠ n) d.gz
    rw [h] at h1
    simp only [Option.getD_some] at h1
    simp only [Disk.bytes, List.map_cons, List.sum_cons]
    omega

theorem append_append (d : Disk) (n : Nat) (a b : List Byte) :
    (d.append n a).append n b = d.append n (a ++ b) := by
  simp [Disk.append, List.lookup, List.filter_filter]

theorem records_length_le (d : Disk) : 12 * d.records.length ≤ d.bytes := by
  have key : ∀ l : List (Nat × List Byte),
      12 * (l.flatMap (fun e => records_of e.2)).length ≤ (l.map (fun e => e.2.length)).sum := by
    intro l
    induction l with
    | nil => simp
    | cons e l ih =>
      simp only [List.flatMap_cons, List.length_append, List.map_cons, List.sum_cons]
      have : (records_of e.2).length = e.2.length / 12 := by simp [records_of]
      rw [this]
      have := Nat.mul_div_le e.2.length 12
      omega
  have := key d.gz
  simp only [Disk.records, Disk.bytes]
  omega

/-- The loop over a buffer that does not fill the part, stream open on a file holding `x`. -/
theorem flush_loop_open (cp : Nat) (d0 : Disk) : ∀ (buf : List (List Char × Int))
    (x : List Byte) (p c : Nat), c + 12 * buf.length < max_part_size →
    flush_loop cp buf true ⟨d0.append cp x, p, c⟩ =
      ⟨d0.append cp (x ++ buf.flatMap record_bytes), p, c + 12 * buf.length⟩ := by
  intro buf
  induction buf with
  | nil => intro x p c _; simp [flush_loop]
  | cons e buf ih =>
    intro x p c h
    simp only [List.length_cons] at h
    have hlt : ¬ c + 12 ≥ max_part_size := by omega
    rw [flush_loop]
    simp only [if_true, hlt, if_false, append_append]
    rw [ih _ _ _ (by omega)]
    simp only [List.flatMap_cons, List.length_cons, List.append_assoc]
    congr 1
    omega

/-- The loop over a buffer that does not fill the part, stream closed: nothing is written. -/
theorem flush_loop_closed (cp : Nat) : ∀ (buf : List (List Char × Int)) (d : Disk) (p c : Nat),
    c + 12 * buf.length < max_part_size →
    flush_loop cp buf false ⟨d, p, c⟩ = ⟨d, p, c + 12 * buf.length⟩ := by
  intro buf
  induction buf with
  | nil => intro d p c _; simp [flush_loop]
  | cons e buf ih =>
    intro d p c h
    simp only [List.length_cons] at h
    have hlt : ¬ c + 12 ≥ max_part_size := by omega
    rw [flush_loop]
    simp only [Bool.false_eq_true, if_false, hlt]
    rw [ih _ _ _ (by omega)]
    simp only [List.length_cons]
    congr 1
    omega

theorem flush_loop_append (cp : Nat) : ∀ (b1 b2 : List (List Char × Int)) (o : Bool)
    (s : BuildState), s.current_part_size + 12 * b1.length < max_part_size →
    flush_loop cp (b1 ++ b2) o s = flush_loop cp b2 o (flush_loop cp b1 o s) := by
  intro b1
  induction b1 with
  | nil => intro b2 o s _; simp [flush_loop]
  | cons e b1 ih =>
    intro b2 o s h
    simp only [List.length_cons] at h
    have hlt : ¬ s.current_part_size + 12 ≥ max_part_size := by omega
    rw [List.cons_append, flush_loop, flush_loop]
    simp only [hlt, if_false]
    exact ih _ _ _ (by simp only; omega)

theorem flush_full_small (buf : List (List Char × Int)) (s : BuildState)
    (h : s.current_part_size + 12 * buf.length < max_part_size) :
    flush_full buf s =
      ⟨s.disk.append (s.parts_created + 1) (buf.flatMap record_bytes), s.parts_created,
        s.current_part_size + 12 * buf.length⟩ := by
  unfold flush_full
  simp only
  rw [flush_loop_open _ _ _ _ _ _ h]
  simp

theorem flatMap_record_bytes_length (buf : List (List Char × Int)) :
    (buf.flatMap record_bytes).length = 12 * buf.length := by
  induction buf with
  | nil => rfl
  | cons e buf ih =>
    simp only [List.flatMap_cons, List.length_append, record_bytes_length, ih, List.length_cons]
    omega

/-- The flush that fills the first part: the part is closed after 1504 entries of the buffer,
the other entries of the buffer go to the closed stream. -/
theorem flush_full_rotate (buf : List (List Char × Int)) (s : BuildState)
    (hc : s.current_part_size = 207600000) (hlen : buf.length = 100000) :
    (flush_full buf s).parts_created = s.parts_created + 1 ∧
    (flush_full buf s).current_part_size = 1181952 ∧
    (flush_full buf s).disk.bytes ≤ s.disk.bytes + 18048 := by
  have hmax : max_part_size = 207618048 := by decide
  have hsplit : buf = buf.take 1503 ++ (buf.get ⟨1503, by omega⟩ :: buf.drop 1504) := by
    have hd : buf.drop 1503 = buf.get ⟨1503, by omega⟩ :: buf.drop 1504 :=
      List.drop_eq_getElem_cons (by omega)
    calc buf = buf.take 1503 ++ buf.drop 1503 := (List.take_append_drop 1503 buf).symm
      _ = _ := by rw [hd]
  have hl1 : (buf.take 1503).length = 1503 := by rw [List.length_take]; omega
  have hl2 : (buf.drop 1504).length = 98496 := by rw [List.length_drop]; omega
  unfold flush_full
  simp only
  rw [hsplit, flush_loop_append _ _ _ _ _ (by simp only [hl1, hc, hmax]; norm_num),
    flush_loop_open _ _ _ _ _ _ (by simp only [hl1, hc, hmax]; norm_num)]
  rw [flush_loop]
  have hge : s.current_part_size + 12 * (buf.take 1503).length + 12 ≥ max_part_size := by
    simp only [hl1, hc, hmax]; norm_num
  simp only [if_true, hge]
  rw [flush_loop_closed _ _ _ _ _ (by simp only [hl2, hmax]; norm_num)]
  refine ⟨rfl, by simp only [hl2], ?_⟩
  simp only
  have h1 := bytes_pigz_le
    ((s.disk.append (s.parts_created + 1)
      ([] ++ (buf.take 1503).flatMap record_bytes)).append (s.parts_created + 1)
      (record_bytes (buf.get ⟨1503, by omega⟩))) (s.parts_created + 1)
  have h2 := bytes_append_le (s.disk.append (s.parts_created + 1)
      ([] ++ (buf.take 1503).flatMap record_bytes)) (s.parts_created + 1)
      (record_bytes (buf.get ⟨1503, by omega⟩))
  have h3 := bytes_append_le s.disk (s.parts_created + 1)
      ([] ++ (buf.take 1503).flatMap record_bytes)
  simp only [List.nil_append, flatMap_record_bytes_length, hl1, record_bytes_length] at h2 h3
  simp only [List.nil_append] at h1 ⊢
  omega


/-- Fewer than 100000 entries in all: the loop only fills the buffer. -/
theorem build_loop_fill (XXH64 : List Char → Nat) (total : Nat) :
    ∀ (todo : Nat) (buffer : List (List Char × Int)) (s : BuildState),
      buffer.length + todo < 100000 →
      ∃ buf, build_loop XXH64 total todo buffer s = (buf, s) ∧
        buf.length = buffer.length + todo := by
  intro todo
  induction todo with
  | zero => intro buffer s _; exact ⟨buffer, rfl, rfl⟩
  | succ todo ih =>
    intro buffer s h
    rw [build_loop]
    simp only [List.length_append, List.length_singleton]
    rw [if_neg (by omega)]
    obtain ⟨buf, h1, h2⟩ := ih
      (buffer ++ [(hash_cpub XXH64 (point_to_cpub (mul (Int.ofNat (total - (todo + 1))))),
        to_int32 (Int.ofNat (total - (todo + 1))))]) s
      (by simp only [List.length_append, List.length_singleton]; omega)
    refine ⟨buf, h1, ?_⟩
    rw [h2]
    simp only [List.length_append, List.length_singleton]
    omega

/-- The loop up to the entry that completes a buffer of 100000 entries, which is flushed. -/
theorem build_loop_chunk (XXH64 : List Char → Nat) (total todo : Nat) :
    ∀ (r n : Nat) (buffer : List (List Char × Int)) (s : BuildState),
      1 ≤ r → buffer.length + r = 100000 → n = todo + r →
      ∃ buf, buf.length = 100000 ∧
        build_loop XXH64 total n buffer s
          = build_loop XXH64 total todo [] (flush_full buf s) := by
  intro r
  induction r with
  | zero => intro n buffer s h; omega
  | succ r ih =>
    intro n buffer s _ hlen hn
    subst hn
    rw [← Nat.add_assoc, build_loop]
    simp only [List.length_append, List.length_singleton]
    rcases Nat.eq_zero_or_pos r with h0 | h0
    · subst h0
      rw [if_pos (by omega)]
      refine ⟨_, ?_, rfl⟩
      simp only [List.length_append, List.length_singleton]
      omega
    · rw [if_neg (by omega)]
      apply ih _ _ s h0 _ rfl
      simp only [List.length_append, List.length_singleton]
      omega

/-- The loop over `j` full buffers none of which fills the part. -/
theorem build_loop_phase (XXH64 : List Char → Nat) (total : Nat) :
    ∀ (j todo n : Nat) (s : BuildState),
      s.current_part_size + 1200000 * j < max_part_size → n = todo + 100000 * j →
      ∃ s', build_loop XXH64 total n [] s
          = build_loop XXH64 total todo [] s' ∧
        s'.parts_created = s.parts_created ∧
        s'.current_part_size = s.current_part_size + 1200000 * j ∧
        s'.disk.bytes ≤ s.disk.bytes + 1200000 * j := by
  intro j
  induction j with
  | zero => intro todo n s _ hn; subst hn; exact ⟨s, rfl, rfl, rfl, le_refl _⟩
  | succ j ih =>
    intro todo n s h hn
    obtain ⟨buf, hlen, hb⟩ := build_loop_chunk XXH64 total (todo + 100000 * j) 100000 n [] s
      (by omega) (by simp) (by omega)
    have hsmall : s.current_part_size + 12 * buf.length < max_part_size := by
      rw [hlen]; omega
    rw [hb, flush_full_small buf s hsmall]
    obtain ⟨s', h1, h2, h3, h4⟩ := ih todo (todo + 100000 * j)
      ⟨s.disk.append (s.parts_created + 1) (buf.flatMap record_bytes), s.parts_created,
        s.current_part_size + 12 * buf.length⟩ (by simp only [hlen]; omega) rfl
    refine ⟨s', h1, h2, ?_, ?_⟩
    · rw [h3]; simp only [hlen]; omega
    · have hb := bytes_append_le s.disk (s.parts_created + 1) (buf.flatMap record_bytes)
      rw [flatMap_record_bytes_length, hlen] at hb
      simp only at h4
      omega

theorem flush_rest_bytes (buf : List (List Char × Int)) (s : BuildState) :
    (flush_rest buf s).disk.bytes ≤ s.disk.bytes + 12 * buf.length := by
  unfold flush_rest
  split_ifs with h
  · omega
  · simp only
    have h1 := bytes_pigz_le (s.disk.append (s.parts_created + 1) (buf.flatMap record_bytes))
      (s.parts_created + 1)
    have h2 := bytes_append_le s.disk (s.parts_created + 1) (buf.flatMap record_bytes)
    rw [flatMap_record_bytes_length] at h2
    omega

theorem max_part_size_eq : max_part_size = 207618048 := by decide

/-- The run of the loop over 23726564 entries: 173 buffers fill the first part up to 207600000
bytes, the 174th closes it after 1504 of its records, 63 more buffers go to the second part,
and 26564 entries are left in the buffer. -/
theorem build_loop_46 (XXH64 : List Char → Nat) (total n : Nat) (hn : n = 23726564) :
    ∃ rest s, build_loop XXH64 total n [] ⟨Disk.empty, 0, 0⟩ = (rest, s) ∧
      rest.length = 26564 ∧ s.disk.bytes ≤ 283218048 := by
  have hmax := max_part_size_eq
  obtain ⟨s1, e1, _, c1, b1⟩ := build_loop_phase XXH64 total 173 6426564 n
    ⟨Disk.empty, 0, 0⟩ (by rw [hmax]; norm_num) (by rw [hn])
  obtain ⟨buf, hlen, e2⟩ := build_loop_chunk XXH64 total 6326564 100000 6426564 [] s1
    (by omega) (by simp) (by omega)
  obtain ⟨_, c2, b2⟩ := flush_full_rotate buf s1 (by rw [c1]) hlen
  obtain ⟨s3, e3, _, _, b3⟩ := build_loop_phase XXH64 total 63 26564 6326564
    (flush_full buf s1) (by rw [c2, hmax]; norm_num) (by omega)
  obtain ⟨rest, e4, hrest⟩ := build_loop_fill XXH64 total 26564 [] s3 (by simp)
  refine ⟨rest, s3, by rw [e1, e2, e3, e4], by rw [hrest]; simp, ?_⟩
  have hb0 : (⟨Disk.empty, 0, 0⟩ : BuildState).disk.bytes = 0 := rfl
  rw [hb0] at b1
  omega

theorem generate_eq (XXH64 : List Char → Nat) (m : Int)
    (r : List (List Char × Int) × BuildState)
    (h : build_loop XXH64 (m.natAbs % 2 ^ 64) (m.natAbs % 2 ^ 64) [] ⟨Disk.empty, 0, 0⟩ = r) :
    generate_baby_table_parallel XXH64 m = (flush_rest r.1 r.2).disk := by
  subst h; rfl

/-- With the 23726564 baby steps of puzzle 46 the files hold at most 23628068 records. -/
theorem generate_46_records (XXH64 : List Char → Nat) :
    (generate_baby_table_parallel XXH64 23726564).records.length ≤ 23628068 := by
  have ht : (23726564 : Int).natAbs % 2 ^ 64 = 23726564 := by norm_num
  obtain ⟨rest, s, e, hrest, hb⟩ := build_loop_46 XXH64 ((23726564 : Int).natAbs % 2 ^ 64)
    ((23726564 : Int).natAbs % 2 ^ 64) ht
  have h1 := flush_rest_bytes rest s
  have h2 := records_length_le (flush_rest rest s).disk
  rw [generate_eq XXH64 23726564 (rest, s) e]
  show (flush_rest rest s).disk.records.length ≤ 23628068
  omega

/-- With 100000 baby steps the only flush is the one of the full buffer: the part is written
and never compressed. -/
theorem generate_100000 (XXH64 : List Char → Nat) :
    ∃ buf : List (List Char × Int), buf.length = 100000 ∧
      generate_baby_table_parallel XXH64 100000
        = ⟨[(1, buf.flatMap record_bytes)], []⟩ := by
  have ht : (100000 : Int).natAbs % 2 ^ 64 = 0 + 100000 := by norm_num
  obtain ⟨buf, hlen, hb⟩ := build_loop_chunk XXH64 ((100000 : Int).natAbs % 2 ^ 64) 0 100000
    ((100000 : Int).natAbs % 2 ^ 64) [] ⟨Disk.empty, 0, 0⟩
    (by omega) (by simp) ht
  refine ⟨buf, hlen, ?_⟩
  have hmax := max_part_size_eq
  rw [flush_full_small buf _ (by simp only [hlen, hmax]; norm_num), build_loop] at hb
  rw [generate_eq XXH64 100000 _ hb]
  simp [flush_rest, Disk.append, Disk.empty, List.lookup]

theorem sqrt_two_pow_45 : Nat.sqrt (2 ^ 45 - 1) = 5931641 := by
  symm; rw [Nat.eq_sqrt]; norm_num

theorem baby_steps_46 : baby_steps 46 = 23726564 := by
  rw [baby_steps_eq 46 (by norm_num)]
  have : ((46 : Int) - 1).toNat = 45 := by decide
  rw [this, sqrt_two_pow_45]; norm_num

/-! ## The stream of `save_baby_table_part` -/

theorem lookup_mem {β : Type} (k : Nat) : ∀ (l : List (Nat × β)) (v : β),
    l.lookup k = some v → (k, v) ∈ l := by
  intro l
  induction l with
  | nil => intro v h; simp at h
  | cons e l ih =>
    intro v h
    obtain ⟨a, b⟩ := e
    rw [List.lookup_cons] at h
    by_cases hk : k = a
    · subst hk
      simp only [beq_self_eq_true] at h
      cases h
      exact List.mem_cons_self _ _
    · have : (k == a) = false := by simpa using hk
      rw [this] at h
      exact List.mem_cons_of_mem _ (ih v h)

/-- A part written through a stream that has handed nothing to the file when `pigz` runs is
an empty compressed file. -/
theorem save_baby_table_part_unflushed (sync : Nat → Nat) (cp : BabyTable) (pn : Nat)
    (d : Disk) (h : sync (12 * cp.length) = 0) (hd : ∀ e ∈ d.gz, e.2 = []) :
    ∀ e ∈ (save_baby_table_part sync cp pn d).gz, e.2 = [] := by
  unfold save_baby_table_part
  simp only [flatMap_record_bytes_length, h, List.take_zero, Disk.pigz, List.lookup,
    beq_self_eq_true]
  intro e he
  rcases List.mem_cons.1 he with rfl | he
  · rfl
  · exact hd e (List.mem_of_mem_filter he)

theorem insert_length_le (cp : BabyTable) (e : List Char × Int) :
    (cp.insert e).length ≤ cp.length + 1 := by
  unfold BabyTable.insert
  split_ifs
  · omega
  · simp

/-- Every part that `save_baby_table` writes through such a stream is empty. -/
theorem save_loop_unflushed (sync : Nat → Nat) :
    ∀ (rest : BabyTable) (current_size part_num : Nat) (cp : BabyTable) (d : Disk),
      (∀ n, n ≤ 12 * (cp.length + rest.length) → sync n = 0) →
      (∀ e ∈ d.gz, e.2 = []) →
      ∀ e ∈ (save_loop sync rest current_size part_num cp d).gz, e.2 = [] := by
  intro rest
  induction rest with
  | nil =>
    intro cs pn cp d hs hd
    unfold save_loop
    split_ifs with hcp
    · exact save_baby_table_part_unflushed sync cp pn d (hs _ (by simp)) hd
    · exact hd
  | cons en rest ih =>
    intro cs pn cp d hs hd
    unfold save_loop
    simp only
    split_ifs with hover
    · apply ih
      · intro n hn
        apply hs
        have := insert_length_le [] en
        simp only [List.length_nil, List.length_cons] at this ⊢
        omega
      · exact save_baby_table_part_unflushed sync cp pn d
          (hs _ (by simp only [List.length_cons]; omega)) hd
    · apply ih
      · intro n hn
        apply hs
        have := insert_length_le cp en
        simp only [List.length_cons] at this ⊢
        omega
      · exact hd

/-- The loader finds no entry on a disk whose compressed parts are all empty. -/
theorem load_parts_empty (d : Disk) (hd : ∀ e ∈ d.gz, e.2 = []) :
    ∀ (fuel part_num : Nat), load_parts d fuel part_num [] = [] := by
  intro fuel
  induction fuel with
  | zero => intro pn; rfl
  | succ fuel ih =>
    intro pn
    unfold load_parts
    cases hl : d.gz.lookup pn with
    | none => simp
    | some bs =>
      have : bs = [] := hd _ (lookup_mem pn d.gz bs hl)
      subst this
      simpa [load_records] using ih (pn + 1)

theorem records_empty (d : Disk) (hd : ∀ e ∈ d.gz, e.2 = []) : d.records = [] := by
  unfold Disk.records
  rw [List.flatMap_eq_nil_iff]
  intro e he
  rw [hd e he]
  rfl

/-- A collection holding a fingerprint twice, written as two 12-byte records of one shard, is
read back as a single entry. -/
theorem load_repeated_fingerprint :
    WFEntry ("0000000a".toList, 1) ∧ WFEntry ("0000000a".toList, 2) ∧
    load_baby_table
        ⟨[], [(1, [("0000000a".toList, 1), ("0000000a".toList, 2)].flatMap record_bytes)]⟩
      = [("0000000a".toList, 2)] ∧
    ¬ List.Perm
        (load_baby_table
          ⟨[], [(1, [("0000000a".toList, 1), ("0000000a".toList, 2)].flatMap record_bytes)]⟩)
        [("0000000a".toList, 1), ("0000000a".toList, 2)] := by
  refine ⟨by decide, by decide, by decide, ?_⟩
  intro h
  have := h.length_eq
  revert this
  decide

/-! ## Properties of the specification, C1 to C10 -/

/-- C1, the failing input of scenario 1 (puzzle 1, target `compress(G)`): the baby-step count
is zero, the builder writes no shard, and `main` ends with "Failed to load baby table" instead
of publishing the key 1, whatever the hash function and the files found on disk. -/
theorem C1_puzzle_one_load_failed (XXH64 : List Char → Nat) (disk : Disk) :
    main XXH64 1 "0279be667ef9dcbbac55a06295ce870b07029bfcdb2dce28d959f2815b16f81798".toList disk
      = Outcome.loadFailed := by
  have hv : validate_pubkey
      "0279be667ef9dcbbac55a06295ce870b07029bfcdb2dce28d959f2815b16f81798".toList = true := by
    decide!
  have hm : baby_steps 1 = 0 := by decide!
  have hg : generate_baby_table_parallel XXH64 0 = Disk.empty := by
    simp [generate_baby_table_parallel, build_loop, flush_rest]
  have hl : load_baby_table Disk.empty = [] := by decide
  unfold main
  simp only [hv, parse_pubkey_G, hm, hg, hl]
  simp

/-- C2: whatever the hash, the table, the puzzle number and the target string, a key `k`
published by the search loop satisfies `point_to_cpub (mul k) = puzzle_pubkey` and is
`start_range + j * m + b` for a giant-step count `j` and an index `b` stored in the table. -/
theorem C2_search_sound (XXH64 : List Char → Nat) (baby_table : BabyTable) (puzzle : Int)
    (puzzle_pubkey : List Char) (P : Point) (k : Int)
    (h : search XXH64 baby_table puzzle puzzle_pubkey P = some (some k)) :
    point_to_cpub (mul k) = puzzle_pubkey ∧
      ∃ (j : Nat) (b : Int) (key : List Char),
        baby_table.find key = some b ∧ k = start_range puzzle + j * baby_steps puzzle + b := by
  obtain ⟨h1, j, b, key, hb, hk⟩ := giant_loop_sound _ _ _ _ _ _ _ _ _ _ _ h
  exact ⟨h1, j, b, key, hb, by rw [hk]; ring⟩

/-- Witness for C2: puzzle 5 with the target `compress(21·G)` and a table holding index 5. -/
theorem C2_search_sound_witness :
    search (fun _ => 0) [("00000000".toList, 5)] 5
        "02352bbf4a4cdd12564f93fa332ce333301d9ad40271f8107181340aef25be59d5".toList (mul 21)
      = some (some 21) ∧
    (point_to_cpub (mul 21)
        = "02352bbf4a4cdd12564f93fa332ce333301d9ad40271f8107181340aef25be59d5".toList ∧
      ∃ (j : Nat) (b : Int) (key : List Char),
        BabyTable.find [("00000000".toList, 5)] key = some b ∧
          (21 : Int) = start_range 5 + j * baby_steps 5 + b) :=
  ⟨by decide!, C2_search_sound (fun _ => 0) [("00000000".toList, 5)] 5
    "02352bbf4a4cdd12564f93fa332ce333301d9ad40271f8107181340aef25be59d5".toList (mul 21) 21
    (by decide!)⟩

/-- C3, the failing input `a = 1`, `b = n - 1`: the two multiples are `G` and its negation,
`add` finds no inverse of the zero denominator and returns a point that is not the sentinel
`(0, 0) = mul ((a + b) mod n)`. -/
theorem C3_add_opposite_multiples :
    add (mul 1) (mul (order - 1)) =
      (5659563192761508084413547218350839200768777758085375688457209287130601213183,
       83121579216557378445487899878180864668798711284981320763518679672151497189239) ∧
    mul ((1 + (order - 1)) % order) = Z ∧
    add (mul 1) (mul (order - 1)) ≠ mul ((1 + (order - 1)) % order) := by
  rw [mul_order_pred]
  decide!

/-- C4, the failing input `P = G` (on the curve, coordinates in `[0, p)`): neither
`point_subtraction G G` nor `add G (G.x, (p - G.y) mod p)` is the sentinel `(0, 0)`. -/
theorem C4_cancel_G :
    OnCurve PG ∧ Reduced PG ∧
    point_subtraction PG PG =
      (5659563192761508084413547218350839200768777758085375688457209287130601213183,
       83121579216557378445487899878180864668798711284981320763518679672151497189239) ∧
    add PG (PG.1, (modulo - PG.2) % modulo) =
      (5659563192761508084413547218350839200768777758085375688457209287130601213183,
       83121579216557378445487899878180864668798711284981320763518679672151497189239) := by
  decide!

/-- C5: for every point `P` on the curve with coordinates in `[0, p)`, of either parity,
`parse_pubkey (point_to_cpub P)` succeeds and returns `P`. -/
theorem C5_compress_roundtrip (P : Point) (hc : OnCurve P) (hr : Reduced P) :
    parse_pubkey (point_to_cpub P) = .ok P := by
  obtain ⟨x, y⟩ := P
  obtain ⟨hx0, hx1, hy0, hy1⟩ := hr
  simp only at hx0 hx1 hy0 hy1
  have hs := mpz_set_str16_get_str16 x hx0
  obtain ⟨hX, hne⟩ := X2Y_on_curve x y ⟨hy0, hy1⟩ hc
  by_cases hpar : y.natAbs % 2 = 0
  · have hy2 : y % 2 = 0 := by omega
    rw [hy2] at hX
    simp [parse_pubkey, point_to_cpub, hpar, hs, stoi_02, hX, hne]
  · have hy2 : y % 2 = 1 := by omega
    rw [hy2] at hX
    simp [parse_pubkey, point_to_cpub, hpar, hs, stoi_03, hX, hne]

/-- Witness for C5: the generator `G`. -/
theorem C5_compress_roundtrip_witness :
    OnCurve PG ∧ Reduced PG ∧ parse_pubkey (point_to_cpub PG) = .ok PG :=
  ⟨by decide, by decide, C5_compress_roundtrip PG (by decide) (by decide)⟩

/-- C6, the failing input `45·G` (on the curve, coordinates in `[0, p)`): its abscissa is below
`16^63`, and `point_to_cpub` returns 65 characters, the digits of `x` without a leading zero. -/
theorem C6_cpub_short :
    OnCurve (mul 45) ∧ Reduced (mul 45) ∧
    point_to_cpub (mul 45)
      = "0249370a4b5f43412ea25f514e8ecdad05266115e4a7ecb1387231808f8b45963".toList ∧
    (point_to_cpub (mul 45)).length = 65 := by
  decide!

/-- C7, the failing input `02` followed by `x = 5`: `5³ + 7 = 132` is not a square modulo `p`,
the value `Y` of `X2Y` has `Y² mod p ≠ 132`, and `parse_pubkey` returns the point `(5, Y)`, which
is not on the curve. -/
theorem C7_off_curve_accepted :
    parse_pubkey "020000000000000000000000000000000000000000000000000000000000000005".toList
      = .ok (5, X2Y 5 0) ∧
    (X2Y 5 0 * X2Y 5 0) % modulo ≠ (5 * 5 * 5 + 7) % modulo ∧
    ¬ OnCurve (5, X2Y 5 0) := by
  decide!

/-- C8 as stated fails: a key of 66 characters with uppercase digits is accepted. -/
theorem C8_uppercase_accepted :
    validate_pubkey "02AAAAAAAAAAAAAAAAAAAAAAAAAAAAAAAAAAAAAAAAAAAAAAAAAAAAAAAAAAAAAAAA".toList
      = true ∧
    validate_pubkey_spec
      "02AAAAAAAAAAAAAAAAAAAAAAAAAAAAAAAAAAAAAAAAAAAAAAAAAAAAAAAAAAAAAAAA".toList
      = false := by
  decide!

/-- C8 amended: `validate_pubkey s` is true exactly when `s` has 66 characters, starts with
`02` or `03`, and each of the other 64 characters is a hexadecimal digit of either case. -/
theorem C8_validate_pubkey_iff (s : List Char) :
    validate_pubkey s = true ↔
      s.length = 66 ∧ (s.take 2 = ['0', '2'] ∨ s.take 2 = ['0', '3']) ∧
        ∀ c ∈ s.drop 2, isxdigit c = true := by
  unfold validate_pubkey
  match s with
  | [] => simp
  | [a] => simp
  | a :: b :: rest =>
    by_cases hlen : rest.length = 64
    · by_cases ha : a = '0' <;> by_cases h2 : b = '2' <;> by_cases h3 : b = '3' <;>
        simp_all [List.all_eq_true]
    · simp [hlen]

/-- C9: for every scalar `k` with `1 ≤ k < n` the point `mul k` satisfies
`y² ≡ x³ + 7 (mod p)` and is not the sentinel `(0, 0)`. -/
theorem C9_mul_on_curve (k : Int) (h1 : 1 ≤ k) (h2 : k < order) :
    OnCurve (mul k) ∧ mul k ≠ Z := by
  haveI : Fact (Nat.Prime modulo.toNat) := ⟨modulo_prime⟩
  obtain ⟨g, hg⟩ := exists_rep_PG
  have hrep := mul_rep_of_lt_order g hg k (by omega) h2
  have hne : k.toNat • g ≠ 0 := by
    apply nsmul_G_ne_zero g hg
    · omega
    · have := Int.toNat_of_nonneg (show 0 ≤ k by omega)
      have ho : (order.toNat : Int) = order := Int.toNat_of_nonneg (by decide)
      omega
  exact ⟨(hrep.onCurve hne).2.1, (hrep.onCurve hne).2.2⟩

/-- Witness for C9: the scalar `k = 2`. -/
theorem C9_mul_on_curve_witness :
    (1 : Int) ≤ 2 ∧ (2 : Int) < order ∧ OnCurve (mul 2) ∧ mul 2 ≠ Z :=
  ⟨by decide, by decide, C9_mul_on_curve 2 (by decide) (by decide)⟩

/-- C10: `mul 0` is the sentinel, `mul 1 = G` and `mul (n - 1) = (G.x, p - G.y)`, but at the
failing input `k = n` the last ladder step adds two opposite points and `mul n` is not the
sentinel `(0, 0)`. -/
theorem C10_mul_boundary :
    mul 0 = Z ∧ mul 1 = PG ∧ mul (order - 1) = (PG.1, modulo - PG.2) ∧ mul order ≠ Z := by
  refine ⟨by decide!, by decide!, mul_order_pred, ?_⟩
  rw [mul_order_eq]
  decide

/-! ## Properties of the specification, C11 to C20 -/

/-- C11 fails in the code in two ways. With `m = 100000` baby steps the only flush is the one
of the full buffer, which leaves its 100000 records (1200000 bytes) in the uncompressed file
`baby_table_part_1`: no compressed shard exists and the loader finds an empty table. With the
`m = 23726564` baby steps of puzzle 46 the first part fills up in the middle of a buffer, the
rest of that buffer is dropped, and the compressed shards hold at most 23628068 records. -/
theorem C11_builder_incomplete (XXH64 : List Char → Nat) :
    ((generate_baby_table_parallel XXH64 100000).gz = [] ∧
      (generate_baby_table_parallel XXH64 100000).records = [] ∧
      (∃ bs, (generate_baby_table_parallel XXH64 100000).raw = [(1, bs)] ∧
        bs.length = 1200000) ∧
      load_baby_table (generate_baby_table_parallel XXH64 100000) = []) ∧
    (baby_steps 46 = 23726564 ∧
      (generate_baby_table_parallel XXH64 (baby_steps 46)).records.length ≤ 23628068 ∧
      23628068 < baby_steps 46) := by
  obtain ⟨buf, hlen, e⟩ := generate_100000 XXH64
  refine ⟨?_, baby_steps_46, ?_, ?_⟩
  · rw [e]
    refine ⟨rfl, rfl, ⟨_, rfl, ?_⟩, rfl⟩
    rw [flatMap_record_bytes_length, hlen]
  · rw [baby_steps_46]
    exact generate_46_records XXH64
  · rw [baby_steps_46]
    norm_num

/-- C12 fails in the code: `save_baby_table_part` runs `pigz` on the part file while the
stream that holds the records is still open and unflushed. For every non-empty table `T` and
every stream that has handed nothing to the file by then, for outputs of up to `12 * |T|`
bytes, the parts written by `save_baby_table T` hold no record and `load_baby_table` reads
back the empty table, not `T`. -/
theorem C12_save_not_flushed (sync : Nat → Nat) (T : BabyTable) (hT : T ≠ [])
    (hs : ∀ n, n ≤ 12 * T.length → sync n = 0) :
    (save_baby_table sync T Disk.empty).records = [] ∧
    load_baby_table (save_baby_table sync T Disk.empty) = [] ∧
    ¬ List.Perm (load_baby_table (save_baby_table sync T Disk.empty)) T := by
  have hd : ∀ e ∈ (save_baby_table sync T Disk.empty).gz, e.2 = [] := by
    unfold save_baby_table
    apply save_loop_unflushed
    · intro n hn
      apply hs
      simpa using hn
    · intro e he
      simp [Disk.empty] at he
  have hl : load_baby_table (save_baby_table sync T Disk.empty) = [] :=
    load_parts_empty _ hd _ _
  refine ⟨records_empty _ hd, hl, ?_⟩
  rw [hl]
  intro hp
  exact hT hp.symm.eq_nil

/-- The failing input of C12: the table of two entries, written through a stream that hands
its bytes to the file in blocks of 8192, ends as one empty compressed part. -/
theorem C12_save_not_flushed_witness :
    ([("0000000a".toList, 5), ("0000000b".toList, 7)] : BabyTable) ≠ [] ∧
    (∀ n, n ≤ 12 * ([("0000000a".toList, 5), ("0000000b".toList, 7)] : BabyTable).length →
      (fun k => k / 8192 * 8192) n = 0) ∧
    save_baby_table (fun k => k / 8192 * 8192)
        [("0000000a".toList, 5), ("0000000b".toList, 7)] Disk.empty = ⟨[], [(1, [])]⟩ ∧
    ((save_baby_table (fun k => k / 8192 * 8192)
        [("0000000a".toList, 5), ("0000000b".toList, 7)] Disk.empty).records = [] ∧
    load_baby_table (save_baby_table (fun k => k / 8192 * 8192)
        [("0000000a".toList, 5), ("0000000b".toList, 7)] Disk.empty) = [] ∧
    ¬ List.Perm (load_baby_table (save_baby_table (fun k => k / 8192 * 8192)
        [("0000000a".toList, 5), ("0000000b".toList, 7)] Disk.empty))
      [("0000000a".toList, 5), ("0000000b".toList, 7)]) :=
  ⟨by decide, by decide, by decide,
    C12_save_not_flushed (fun k => k / 8192 * 8192)
      [("0000000a".toList, 5), ("0000000b".toList, 7)] (by decide) (by decide)⟩

/-- C13 as stated fails: two records whose first eight bytes differ after a zero byte are one
fingerprint for the loader, which keeps a single entry with the key cut at the zero byte. -/
theorem C13_zero_byte_in_key :
    load_baby_table ⟨[], [(1, [97, 0, 98, 98, 98, 98, 98, 98, 1, 0, 0, 0,
                              97, 0, 99, 99, 99, 99, 99, 99, 2, 0, 0, 0])]⟩ = [(['a'], 2)] ∧
    load_baby_table ⟨[], [(1, [97, 0, 98, 98, 98, 98, 98, 98, 1, 0, 0, 0,
                              97, 0, 99, 99, 99, 99, 99, 99, 2, 0, 0, 0])]⟩
      ≠ insert_all [] (records_of_spec [97, 0, 98, 98, 98, 98, 98, 98, 1, 0, 0, 0,
                              97, 0, 99, 99, 99, 99, 99, 99, 2, 0, 0, 0]) := by
  decide

/-- C13 amended: for every byte sequence `B` of a decompressed shard the loader inserts the
`⌊|B| / 12⌋` complete records of `B` in order, each with the key made of its bytes 0..7 up to
the first zero byte and the index held in its bytes 8..11; a trailing fragment of fewer than
12 bytes adds nothing, and a key occurring in several records keeps the index of the last. -/
theorem C13_loader_records (B : List Byte) (raw : List (Nat × List Byte)) :
    (records_of B).length = B.length / 12 ∧
    load_baby_table ⟨raw, [(1, B)]⟩ = insert_all [] (records_of B) ∧
    (∀ t : BabyTable, load_records B.length B t = insert_all t (records_of B)) ∧
    (∀ frag : List Byte, B.length % 12 = 0 → frag.length < 12 →
      load_baby_table ⟨raw, [(1, B ++ frag)]⟩ = load_baby_table ⟨raw, [(1, B)]⟩) ∧
    (∀ key : List Char,
      (load_baby_table ⟨raw, [(1, B)]⟩).find key = (records_of B).reverse.lookup key) := by
  refine ⟨by simp [records_of], load_single_part raw B,
    fun t => load_records_eq _ _ _ (Nat.div_le_self _ _), ?_, ?_⟩
  · intro frag hB hf
    rw [load_single_part, load_single_part,
      records_of_append_fragment (B.length / 12) B frag (by omega) hf]
  · intro key
    rw [load_single_part, find_insert_all]
    simp [BabyTable.find]


/-- C13 amended, at a shard of two records with the same key followed by a fragment of three
bytes: the loader keeps one entry, with the index of the second record. -/
theorem C13_loader_records_witness :
    (97 :: 49 :: 50 :: 51 :: 52 :: 53 :: 54 :: 55 :: 1 :: 0 :: 0 :: 0 ::
      97 :: 49 :: 50 :: 51 :: 52 :: 53 :: 54 :: 55 :: 2 :: 0 :: 0 :: 0 :: ([] : List Byte)).length
        % 12 = 0 ∧
    ([7, 7, 7] : List Byte).length < 12 ∧
    load_baby_table ⟨[], [(1, [97, 49, 50, 51, 52, 53, 54, 55, 1, 0, 0, 0,
                              97, 49, 50, 51, 52, 53, 54, 55, 2, 0, 0, 0] ++ [7, 7, 7])]⟩
      = load_baby_table ⟨[], [(1, [97, 49, 50, 51, 52, 53, 54, 55, 1, 0, 0, 0,
                              97, 49, 50, 51, 52, 53, 54, 55, 2, 0, 0, 0])]⟩ :=
  ⟨by decide, by decide,
    (C13_loader_records [97, 49, 50, 51, 52, 53, 54, 55, 1, 0, 0, 0,
      97, 49, 50, 51, 52, 53, 54, 55, 2, 0, 0, 0] []).2.2.2.1 [7, 7, 7] (by decide) (by decide)⟩

/-- C14: for every string `s`, with `H` the 64-bit value of `XXH64` on `s`, `hash_cpub s` is
the zero-padded hexadecimal form of `⌊H / 2^32⌋`, that is the first 8 of the 16 hexadecimal
digits of `H`: exactly 8 lowercase hexadecimal characters. -/
theorem C14_hash_cpub_format (XXH64 : List Char → Nat) (s : List Char) :
    hash_cpub XXH64 s = hexFixed 8 (XXH64 s % 2 ^ 64 / 2 ^ 32) ∧
    hash_cpub XXH64 s = (hexFixed 16 (XXH64 s % 2 ^ 64)).take 8 ∧
    (hash_cpub XXH64 s).length = 8 ∧
    ∀ c ∈ hash_cpub XXH64 s, isLowerHex c = true := by
  have h := hash_cpub_eq XXH64 s
  refine ⟨h, ?_, ?_, ?_⟩
  · rw [h, hexFixed_add 8 8]
    have : (2 : Nat) ^ 32 = 16 ^ 8 := by norm_num
    rw [this, List.take_left' (hexFixed_length 8 _)]
  · rw [h, hexFixed_length]
  · rw [h]; exact hexFixed_lower 8 _

/-- C15: for every puzzle number in `[1, 256]` the baby-step count `m` of `main` satisfies
`m * m ≥ end_range - start_range`. -/
theorem C15_baby_steps_cover (puzzle : Int) (h1 : 1 ≤ puzzle) (_h2 : puzzle ≤ 256) :
    baby_steps puzzle * baby_steps puzzle ≥ end_range puzzle - start_range puzzle := by
  rw [baby_steps_eq puzzle h1, range_eq puzzle h1]
  have h := sixteen_sq_sqrt_ge (2 ^ (puzzle - 1).toNat - 1)
  have hp : (1 : Nat) ≤ 2 ^ (puzzle - 1).toNat := Nat.one_le_two_pow
  have hc : (((2 ^ (puzzle - 1).toNat - 1 : Nat)) : Int) = 2 ^ (puzzle - 1).toNat - 1 := by
    rw [Nat.cast_sub hp]; simp
  rw [ge_iff_le, ← hc]
  exact_mod_cast h

/-- Witness for C15: puzzle 30, where `m = 92680`. -/
theorem C15_baby_steps_cover_witness :
    baby_steps 30 = 92680 ∧
      baby_steps 30 * baby_steps 30 ≥ end_range 30 - start_range 30 :=
  ⟨by rw [baby_steps_eq 30 (by norm_num)]
      have : ((30 : Int) - 1).toNat = 29 := by decide
      rw [this, sqrt_two_pow_29]; norm_num,
   C15_baby_steps_cover 30 (by norm_num) (by norm_num)⟩

/-- C16, the failing input puzzle 5 with `k = 16 = start_range` (`j = 0`, `b = 0`): the
running point `S = P - start_range·G` is not the baby point `mul 0 = (0, 0)`, and its
compressed form differs from the one of `mul 0`; likewise for `k = 28` after one giant step
(`j = 1`, `b = 0`). -/
theorem C16_giant_step_b_zero :
    point_subtraction (mul 16) (mul (start_range 5)) ≠ mul 0 ∧
    point_to_cpub (point_subtraction (mul 16) (mul (start_range 5))) ≠ point_to_cpub (mul 0) ∧
    point_subtraction (point_subtraction (mul 28) (mul (start_range 5))) (mul (baby_steps 5))
      ≠ mul 0 := by
  decide!

/-- C17, the failing inputs `P = (0, 0)`, `Q = G` and `P = neg G`, `Q = G`: for `P` the
sentinel `point_subtraction` returns `(G.x, -G.y)` with a negative ordinate, not
`add P (neg G) = (G.x, p - G.y)`; for `P = neg G` it does not return the doubling
`add P (neg G)` of `P`. -/
theorem C17_subtraction_not_add_neg :
    OnCurve PG ∧ Reduced PG ∧
    point_subtraction Z PG = (Gx, -Gy) ∧
    add Z (neg PG) = (Gx, modulo - Gy) ∧
    point_subtraction Z PG ≠ add Z (neg PG) ∧
    OnCurve (neg PG) ∧ Reduced (neg PG) ∧
    add (neg PG) (neg PG) = neg (mul 2) ∧
    point_subtraction (neg PG) PG ≠ add (neg PG) (neg PG) := by
  decide!

/-- C18: for points `P`, `Q` other than the sentinel, with integer coordinates of any sign and
a slope denominator invertible modulo `p`, `add P Q` has both coordinates in `[0, p)` and
satisfies `x ≡ λ² - P.x - Q.x`, `y ≡ λ (P.x - x) - P.y (mod p)` for the slope
`λ ≡ num / denom`, the chord slope when `P ≠ Q` and the tangent slope when `P = Q`. -/
theorem C18_add_reduced (P Q : Point) (hP : P ≠ Z) (hQ : Q ≠ Z)
    (hinv : ∃ v : Int, (slopeDenom P Q * v) % modulo = 1) :
    ∃ lam : Int, (slopeDenom P Q * lam - slopeNum P Q) % modulo = 0 ∧
      0 ≤ (add P Q).1 ∧ (add P Q).1 < modulo ∧ 0 ≤ (add P Q).2 ∧ (add P Q).2 < modulo ∧
      ((add P Q).1 - (lam * lam - P.1 - Q.1)) % modulo = 0 ∧
      ((add P Q).2 - (lam * (P.1 - (add P Q).1) - P.2)) % modulo = 0 := by
  have hd := cast_ne_zero_of_invertible _ hinv
  obtain ⟨inv, hi, hiF⟩ := mpz_invert_spec _ hd
  by_cases hne : P = Q
  · subst hne
    have hy : P.2 ≠ 0 := by
      intro h0
      apply hd
      simp [slopeDenom, h0]
    simp only [slopeDenom, slopeNum, ne_eq, not_true_eq_false, if_false] at hi hiF hd ⊢
    obtain ⟨x, y, hadd, hx, hy'⟩ := add_self_eq P hP hy _ rfl
    rw [hi, Option.getD_some] at hx hy'
    rw [hadd]
    exact add_outputs P.1 P.2 P.1 _ _ inv x y hiF hd hx hy'
  · simp only [slopeDenom, slopeNum, ne_eq, hne, not_false_eq_true, if_true] at hi hiF hd ⊢
    obtain ⟨x, y, hadd, hx, hy'⟩ := add_ne_eq P Q hP hQ hne _ rfl
    rw [hi, Option.getD_some] at hx hy'
    rw [hadd]
    exact add_outputs P.1 P.2 Q.1 _ _ inv x y hiF hd hx hy'

/-- Witness for C18: the doubling of `G`. -/
theorem C18_add_reduced_witness :
    PG ≠ Z ∧
    (∃ v : Int, (slopeDenom PG PG * v) % modulo = 1) ∧
    ∃ lam : Int, (slopeDenom PG PG * lam - slopeNum PG PG) % modulo = 0 ∧
      0 ≤ (add PG PG).1 ∧ (add PG PG).1 < modulo ∧ 0 ≤ (add PG PG).2 ∧ (add PG PG).2 < modulo ∧
      ((add PG PG).1 - (lam * lam - PG.1 - PG.1)) % modulo = 0 ∧
      ((add PG PG).2 - (lam * (PG.1 - (add PG PG).1) - PG.2)) % modulo = 0 :=
  ⟨by decide,
   ⟨83174505189910067536517124096019359197644205712500122884473429251812128958118, by decide!⟩,
   C18_add_reduced PG PG (by decide) (by decide)
    ⟨83174505189910067536517124096019359197644205712500122884473429251812128958118, by decide!⟩⟩

/-- C19: for every puzzle number in `[2, 256]` the stride `m` is at least 4 and every offset
`d` of the range has its giant step `⌊d / m⌋ * m` strictly below `end_range - start_range`.
The loop condition of the search admits that iteration: a loop that has published no key in
the earlier iterations reaches it, and publishes `start_range + ⌊d / m⌋ * m + b` when the
table holds `b` for the fingerprint of the running point and the candidate is verified. The
loop ends after at most `⌈(end_range - start_range) / m⌉` iterations, which is the number of
iterations it runs when no table entry is found. -/
theorem C19_loop_reaches_offsets (puzzle : Int) (h2 : 2 ≤ puzzle) (_h256 : puzzle ≤ 256) :
    4 ≤ baby_steps puzzle ∧
    (∀ d : Int, 0 ≤ d → d ≤ end_range puzzle - start_range puzzle →
      d / baby_steps puzzle * baby_steps puzzle < end_range puzzle - start_range puzzle ∧
      ∃ b : Int, 0 ≤ b ∧ b < baby_steps puzzle ∧
        d = d / baby_steps puzzle * baby_steps puzzle + b) ∧
    (∀ (XXH64 : List Char → Nat) (baby_table : BabyTable) (puzzle_pubkey : List Char)
        (m_P local_S : Point) (d b : Int) (fuel : Nat),
      0 ≤ d → d ≤ end_range puzzle - start_range puzzle →
      (d / baby_steps puzzle).toNat < fuel →
      (∀ i : Nat, i < (d / baby_steps puzzle).toNat → ∀ b' : Int,
        baby_table.find (hash_cpub XXH64 (point_to_cpub (giant_S m_P local_S i))) = some b' →
        point_to_cpub (mul (start_range puzzle + i * baby_steps puzzle + b'))
          ≠ puzzle_pubkey) →
      baby_table.find (hash_cpub XXH64
        (point_to_cpub (giant_S m_P local_S (d / baby_steps puzzle).toNat))) = some b →
      point_to_cpub (mul (start_range puzzle + d / baby_steps puzzle * baby_steps puzzle + b))
        = puzzle_pubkey →
      giant_loop XXH64 baby_table puzzle_pubkey (start_range puzzle)
        (end_range puzzle - start_range puzzle) (baby_steps puzzle) m_P fuel local_S 0
        = some (some (start_range puzzle + d / baby_steps puzzle * baby_steps puzzle + b))) ∧
    (∀ (XXH64 : List Char → Nat) (baby_table : BabyTable) (puzzle_pubkey : List Char)
        (m_P local_S : Point),
      giant_loop XXH64 baby_table puzzle_pubkey (start_range puzzle)
        (end_range puzzle - start_range puzzle) (baby_steps puzzle) m_P
        (((end_range puzzle - start_range puzzle + baby_steps puzzle - 1)
            / baby_steps puzzle).toNat + 1) local_S 0 ≠ none) ∧
    (∀ (XXH64 : List Char → Nat) (puzzle_pubkey : List Char) (m_P local_S : Point),
      giant_loop XXH64 [] puzzle_pubkey (start_range puzzle)
        (end_range puzzle - start_range puzzle) (baby_steps puzzle) m_P
        ((end_range puzzle - start_range puzzle + baby_steps puzzle - 1)
            / baby_steps puzzle).toNat local_S 0 = none ∧
      giant_loop XXH64 [] puzzle_pubkey (start_range puzzle)
        (end_range puzzle - start_range puzzle) (baby_steps puzzle) m_P
        (((end_range puzzle - start_range puzzle + baby_steps puzzle - 1)
            / baby_steps puzzle).toNat + 1) local_S 0 = some none) := by
  have hm := four_le_baby_steps puzzle h2
  have hpos : 0 < baby_steps puzzle := by omega
  have harith : ∀ d : Int, 0 ≤ d → d ≤ end_range puzzle - start_range puzzle →
      d / baby_steps puzzle * baby_steps puzzle < end_range puzzle - start_range puzzle ∧
      ∃ b : Int, 0 ≤ b ∧ b < baby_steps puzzle ∧
        d = d / baby_steps puzzle * baby_steps puzzle + b := by
    intro d hd0 hd
    have hmul : d / baby_steps puzzle * baby_steps puzzle ≤ d :=
      Int.ediv_mul_le d (by omega)
    have hmod := Int.emod_add_ediv d (baby_steps puzzle)
    have hmod0 := Int.emod_nonneg d (show baby_steps puzzle ≠ 0 by omega)
    have hmodlt := Int.emod_lt_of_pos d (show 0 < baby_steps puzzle by omega)
    refine ⟨?_, d % baby_steps puzzle, hmod0, hmodlt, by linarith⟩
    -- the range is odd, a multiple of `m` is even
    have hr := range_eq puzzle (by omega)
    have hk : (puzzle - 1).toNat = (puzzle - 2).toNat + 1 := by omega
    rw [hk, pow_succ] at hr
    obtain ⟨s, hs⟩ : ∃ s : Int, baby_steps puzzle = 4 * s :=
      ⟨_, baby_steps_eq puzzle (by omega)⟩
    rw [hr] at hd ⊢
    rw [hs] at hmul ⊢
    have : d / (4 * s) * (4 * s) ≠ 2 ^ (puzzle - 2).toNat * 2 - 1 := by
      intro heq
      have h4 : d / (4 * s) * (4 * s) = 2 * (2 * (d / (4 * s) * s)) := by ring
      omega
    omega
  have hrpos : 0 < end_range puzzle - start_range puzzle := by
    rw [range_eq puzzle (by omega)]
    have hk : (puzzle - 1).toNat = (puzzle - 2).toNat + 1 := by omega
    have : (0 : Int) < 2 ^ (puzzle - 2).toNat := by positivity
    rw [hk, pow_succ]
    omega
  have hnn : 0 ≤ (end_range puzzle - start_range puzzle + baby_steps puzzle - 1)
      / baby_steps puzzle := Int.ediv_nonneg (by omega) hpos.le
  have h1 := Int.emod_add_ediv (end_range puzzle - start_range puzzle + baby_steps puzzle - 1)
    (baby_steps puzzle)
  have h3 := Int.emod_nonneg (end_range puzzle - start_range puzzle + baby_steps puzzle - 1)
    (show baby_steps puzzle ≠ 0 by omega)
  have h4 := Int.emod_lt_of_pos (end_range puzzle - start_range puzzle + baby_steps puzzle - 1)
    hpos
  refine ⟨hm, harith, ?_, ?_, ?_⟩
  · intro XXH64 baby_table puzzle_pubkey m_P S d b fuel hd0 hd hfuel hno hb hk
    have hj : ((d / baby_steps puzzle).toNat : Int) = d / baby_steps puzzle :=
      Int.toNat_of_nonneg (Int.ediv_nonneg hd0 hpos.le)
    have := giant_loop_probe XXH64 baby_table puzzle_pubkey (start_range puzzle)
      (end_range puzzle - start_range puzzle) (baby_steps puzzle) m_P
      (d / baby_steps puzzle).toNat fuel S b hfuel
      (by rw [hj]; exact (harith d hd0 hd).1) hpos.le hno hb (by rw [hj]; exact hk)
    rw [hj] at this
    exact this
  · intro XXH64 baby_table puzzle_pubkey m_P S
    apply giant_loop_bound
    rw [Int.toNat_of_nonneg hnn, sub_zero]
    nlinarith
  · intro XXH64 puzzle_pubkey m_P S
    apply giant_loop_count _ _ _ _ _ _ _ _ hpos.le
    · rw [Int.toNat_of_nonneg hnn]
      nlinarith
    · rw [Int.toNat_of_nonneg hnn]
      nlinarith

/-- Witness for C19: puzzle 5 (range `[16, 31]`, `m = 12`) with the target `compress(30·G)`,
offset `d = 14 = 1 * 12 + 2`, and a table holding the index 2 under the only fingerprint of a
constant hash: the first iteration verifies no key, the second publishes 30. -/
theorem C19_loop_reaches_offsets_witness :
    (2 : Int) ≤ 5 ∧ (5 : Int) ≤ 256 ∧
    giant_loop (fun _ => 0) [("00000000".toList, 2)]
        "036d2b085e9e382ed10b69fc311a03f8641ccfff21574de0927513a49d9a688a00".toList
        (start_range 5) (end_range 5 - start_range 5) (baby_steps 5) (mul (baby_steps 5))
        ((end_range 5 - start_range 5).toNat + 1)
        (point_subtraction (mul 30) (mul (start_range 5))) 0
      = some (some (start_range 5 + 14 / baby_steps 5 * baby_steps 5 + 2)) ∧
    start_range 5 + 14 / baby_steps 5 * baby_steps 5 + 2 = 30 :=
  ⟨by norm_num, by norm_num,
    (C19_loop_reaches_offsets 5 (by norm_num) (by norm_num)).2.2.1 (fun _ => 0)
      [("00000000".toList, 2)]
      "036d2b085e9e382ed10b69fc311a03f8641ccfff21574de0927513a49d9a688a00".toList
      (mul (baby_steps 5)) (point_subtraction (mul 30) (mul (start_range 5))) 14 2
      ((end_range 5 - start_range 5).toNat + 1)
      (by norm_num) (by decide!) (by decide!)
      (by
        intro i hi b hb
        have hj : (14 / baby_steps 5).toNat = 1 := by decide!
        have hi0 : i = 0 := by omega
        have h2 : BabyTable.find [("00000000".toList, 2)]
            (hash_cpub (fun _ => 0) (point_to_cpub
              (giant_S (mul (baby_steps 5)) (point_subtraction (mul 30) (mul (start_range 5)))
                i))) = some 2 := rfl
        have hb2 : b = 2 := by
          rw [h2] at hb
          exact (Option.some.inj hb).symm
        subst hi0 hb2
        decide!)
      (by decide!) (by decide!), by decide!⟩

/-- C20: for every puzzle number in `[1, 59]` the baby-step count is below `2^31`, so every
index `i` in `[0, m)` is unchanged by the conversion to `int` and by the four bytes of the
record; for puzzle 60 the count exceeds `2^31` and the index `2^31` does not survive the
conversion. -/
theorem C20_index_fits_int (puzzle : Int) (h1 : 1 ≤ puzzle) (h2 : puzzle ≤ 59) :
    (baby_steps puzzle < 2 ^ 31 ∧
      ∀ i : Int, 0 ≤ i → i < baby_steps puzzle →
        to_int32 i = i ∧ int_of_bytes (int_bytes (to_int32 i)) = i) ∧
    (2 ^ 31 < baby_steps 60 ∧
      ∃ i : Int, 0 ≤ i ∧ i < baby_steps 60 ∧ to_int32 i ≠ i ∧
        int_of_bytes (int_bytes (to_int32 i)) ≠ i) := by
  have hm := baby_steps_le_59 puzzle h1 h2
  refine ⟨⟨by omega, ?_⟩, ?_⟩
  · intro i h0 hi
    have e := to_int32_of_range i (by omega) (by omega)
    rw [e]
    exact ⟨rfl, int_of_bytes_int_bytes i (by omega) (by omega)⟩
  · rw [baby_steps_60]
    refine ⟨by norm_num, 2 ^ 31, by norm_num, by norm_num, by decide, by decide⟩

/-- Witness for C20: puzzle 59, where `m = 2^31 - 4`. -/
theorem C20_index_fits_int_witness :
    (1 : Int) ≤ 59 ∧ (59 : Int) ≤ 59 ∧
    ((baby_steps 59 < 2 ^ 31 ∧
      ∀ i : Int, 0 ≤ i → i < baby_steps 59 →
        to_int32 i = i ∧ int_of_bytes (int_bytes (to_int32 i)) = i) ∧
    (2 ^ 31 < baby_steps 60 ∧
      ∃ i : Int, 0 ≤ i ∧ i < baby_steps 60 ∧ to_int32 i ≠ i ∧
        int_of_bytes (int_bytes (to_int32 i)) ≠ i)) :=
  ⟨by norm_num, by norm_num, C20_index_fits_int 59 (by norm_num) (by norm_num)⟩

end BSGS
